import Mathlib

/-!
Verification of the sumcheck crate: a shallow embedding of `mle.rs`,
`utils.rs` and `sumcheck.rs`, together with the transcript-sponge interface
of `shared_types`.  Rust aborts (out-of-bounds indexing, failed unwraps)
are modelled by `Option`, with `none` standing for an abort; the fallible
interpolation routine returns `Option (Except String F)`, where the outer
`none` is an abort and `Except.error` is the recoverable error value of the
source.  The scalar type is an arbitrary `Field F` with decidable equality,
matching the generic `F: Field` bound of the source.
-/

namespace Sumcheck

/-- The transcript-sponge capability of `shared_types/src/transcript/mod.rs`,
restricted to the operations the sumcheck engine uses.  A sponge is a pure
state machine over states `S`: `absorb` and `absorbElements` feed data in,
`squeeze` extracts a challenge and the successor state.  Determinism of the
Fiat-Shamir transform is automatic because the operations are functions. -/
structure TranscriptSponge (F : Type) (S : Type) where
  absorb : S → F → S
  absorbElements : S → List F → S
  squeeze : S → F × S

variable {F : Type} [Field F] [DecidableEq F] {S : Type}

/-- `MultilinearExtension` of `mle.rs`: a dense evaluation table together
with the variable count computed by `new`. -/
structure MultilinearExtension (F : Type) where
  bookkeping_table : List F
  num_vars : Nat
deriving DecidableEq

namespace MultilinearExtension

/-- `MultilinearExtension::new`.  `ark_std::log2` is the ceiling base-2
logarithm with `log2 0 = 0`, which is exactly `Nat.clog 2`. -/
def new (bookkeeping_table_vec : List F) : MultilinearExtension F :=
  { bookkeping_table := bookkeeping_table_vec
    num_vars := Nat.clog 2 bookkeeping_table_vec.length }

/-- `MultilinearExtension::get`: out of range, implicit zero, or stored. -/
def get (f : MultilinearExtension F) (idx : Nat) : Option F :=
  if idx ≥ 2 ^ f.num_vars then none
  else if idx ≥ f.bookkeping_table.length then some 0
  else some (f.bookkeping_table.getD idx 0)

/-- `MultilinearExtension::table`. -/
def table (f : MultilinearExtension F) : List F :=
  f.bookkeping_table

/-- `MultilinearExtension::restrict_first_var`.  The source updates
`table[i]` in place from `table[i]` and `table[i + half]` for `i < half`
and then truncates to `half`; since every write lands at an index strictly
below every later read, this equals the map below over the original table. -/
def restrict_first_var (table : List F) (r : F) : List F :=
  if table.length = 1 then table
  else
    (List.range (table.length / 2)).map (fun i =>
      (1 - r) * table.getD i 0 + r * table.getD (i + table.length / 2) 0)

end MultilinearExtension

/-- `UnivariateEvals` of `utils.rs`.  The source constructor asserts
`evals.len() > 0`; every list constructed by the protocol is nonempty. -/
structure UnivariateEvals (F : Type) where
  evals : List F
  univariate_poly_deg : Nat
deriving DecidableEq

namespace UnivariateEvals

/-- `UnivariateEvals::new` (degree inferred as `len - 1`). -/
def new (evals : List F) : UnivariateEvals F :=
  { evals := evals, univariate_poly_deg := evals.length - 1 }

/-- `UnivariateEvals::get_raw_evals`. -/
def get_raw_evals (u : UnivariateEvals F) : List F :=
  u.evals

/-- `UnivariateEvals::get_degree`. -/
def get_degree (u : UnivariateEvals F) : Nat :=
  u.univariate_poly_deg

/-- Sequencing of the lazily evaluated iterator of barycentric terms: the
first aborting term aborts the whole evaluation, as in the source where the
`unwrap` inside the closure fires while `reduce` consumes the iterator. -/
def sequenceTerms {α : Type} : List (Option α) → Option (List α)
  | [] => some []
  | o :: rest => do
      let x ← o
      let xs ← sequenceTerms rest
      pure (x :: xs)

/-- `UnivariateEvals::evaluate_at_a_point`.  Outer `none` is an abort
(the `denom.invert().unwrap()` on a zero denominator, or indexing an empty
list); `Except.error` is the `anyhow` error returned when `reduce` yields
nothing, i.e. only when the evaluation list is empty past the guards. -/
def evaluate_at_a_point (u : UnivariateEvals F) (point : F) :
    Option (Except String F) :=
  if u.evals.length = 1 then some (Except.ok (u.evals.getD 0 0))
  else if point = 0 then (u.evals.get? 0).map Except.ok
  else if point = 1 then
    match u.evals.get? 1 with
    | some v => some (Except.ok v)
    | none => (u.evals.get? 0).map Except.ok
  else
    match sequenceTerms ((List.range u.evals.length).map (fun x =>
        let nd := ((List.range x) ++
            (List.range' (x + 1) (u.evals.length - (x + 1)))).foldl
          (fun (nd : F × F) (val : Nat) =>
            (nd.1 * (point - (val : F)), nd.2 * ((x : F) - (val : F))))
          (1, 1)
        if nd.2 = 0 then none
        else some (u.evals.getD x 0 * nd.1 * nd.2⁻¹))) with
    | none => none
    | some terms =>
      match terms with
      | [] => some (Except.error "Interpretation Error: No Inverse")
      | t :: ts => some (Except.ok (ts.foldl (· + ·) t))

end UnivariateEvals

/-- `SumcheckProof` of `utils.rs`. -/
structure SumcheckProof (F : Type) where
  claimed_sum : F
  prover_sumcheck_round_messages : List (UnivariateEvals F)
deriving DecidableEq

namespace SumcheckProof

/-- `SumcheckProof::new`. -/
def new (claimed_sum : F) (prover_sumcheck_round_messages : List (UnivariateEvals F)) :
    SumcheckProof F :=
  { claimed_sum := claimed_sum
    prover_sumcheck_round_messages := prover_sumcheck_round_messages }

/-- `SumcheckProof::get_claimed_sum`. -/
def get_claimed_sum (p : SumcheckProof F) : F :=
  p.claimed_sum

/-- `SumcheckProof::get_prover_sumcheck_round_messages`. -/
def get_prover_sumcheck_round_messages (p : SumcheckProof F) :
    List (UnivariateEvals F) :=
  p.prover_sumcheck_round_messages

end SumcheckProof

/-- `sum_over_hypercube` of `sumcheck.rs`: the brute-force hypercube sum;
the `unwrap` on `get` is the `Option` bind. -/
def sum_over_hypercube (mles : List (MultilinearExtension F)) (n : Nat) : Option F :=
  (List.range (2 ^ n)).foldlM
    (fun final_sum idx => do
      let prod ← mles.foldlM
        (fun prod f => do
          let v ← f.get (idx >>> (n - f.num_vars))
          pure (prod * v))
        (1 : F)
      pure (final_sum + prod))
    (0 : F)

/-- `eval_round_univariate` of `sumcheck.rs`.  Indexing `tab[base_idx]` and
`tab[base_idx + half_sz]` is `List.get?`, so reading past the end of a
working table aborts the prover. -/
def eval_round_univariate (const_prod : F) (active_factors : List (List F × Nat))
    (num_remaining_vars : Nat) : Option (List F) :=
  (List.range (active_factors.length + 1)).foldlM
    (fun evals (alpha : Nat) => do
      let a : F := (alpha : F)
      let sum ← (List.range (2 ^ num_remaining_vars)).foldlM
        (fun sum point => do
          let prod ← active_factors.foldlM
            (fun prod tf => do
              let num_remaining_vars_in_mle := tf.2 - 1
              let shift := num_remaining_vars - num_remaining_vars_in_mle
              let base_idx := point >>> shift
              let half_sz := 2 ^ num_remaining_vars_in_mle
              let low ← tf.1.get? base_idx
              let high ← tf.1.get? (base_idx + half_sz)
              pure (prod * ((1 - a) * low + a * high)))
            const_prod
          pure (sum + prod))
        (0 : F)
      pure (evals ++ [sum]))
    []

/-- `restrict_all_active_tables` of `sumcheck.rs`: restrict every table
whose factor still has variables left and decrement its count. -/
def restrict_all_active_tables (tables : List (List F)) (vars_left : List Nat) (r : F) :
    List (List F) × List Nat :=
  ((tables.zip vars_left).map (fun tv =>
    if tv.2 > 0 then (MultilinearExtension.restrict_first_var tv.1 r, tv.2 - 1)
    else tv)).unzip

/-- The per-round prover state of `sumcheck_prove`: the cloned working
tables, the remaining-variable counts, the constant accumulator, the owned
transcript, and the messages pushed so far. -/
structure ProverState (F : Type) (S : Type) where
  tables : List (List F)
  vars_left : List Nat
  const_prod : F
  transcript : S
  msgs : List (UnivariateEvals F)

/-- `let n = mles.iter().map(|f| f.num_vars()).max().unwrap_or(0)`. -/
def maxNumVars (mles : List (MultilinearExtension F)) : Nat :=
  (mles.map (fun f => f.num_vars)).foldl max 0

/-- One iteration of the round loop of `sumcheck_prove` (round index `i`). -/
def sumcheck_prove_round (Sp : TranscriptSponge F S) (n : Nat)
    (st : ProverState F S) (i : Nat) : Option (ProverState F S) := do
  let num_remaining_vars := n - i - 1
  let active_factors := (st.tables.zip st.vars_left).filter (fun tv => tv.2 > 0)
  let evals ← eval_round_univariate st.const_prod active_factors num_remaining_vars
  let t2 := Sp.absorbElements st.transcript evals
  let msgs := st.msgs ++ [UnivariateEvals.new evals]
  let rt := Sp.squeeze t2
  let prev_vars_left := st.vars_left
  let tv := restrict_all_active_tables st.tables st.vars_left rt.1
  let const_prod ← ((tv.1.zip tv.2).zip prev_vars_left).foldlM
    (fun cp x =>
      if x.2 > 0 ∧ x.1.2 = 0 then do
        let v ← x.1.1.get? 0
        pure (cp * v)
      else pure cp)
    st.const_prod
  pure { tables := tv.1, vars_left := tv.2, const_prod := const_prod,
         transcript := rt.2, msgs := msgs }

/-- `sumcheck_prove` of `sumcheck.rs`.  The `&mut` transcript is modelled
by also returning the final sponge state. -/
def sumcheck_prove (Sp : TranscriptSponge F S) (transcript : S)
    (mles : List (MultilinearExtension F)) : Option (SumcheckProof F × S) := do
  let n := maxNumVars mles
  let claimed ← sum_over_hypercube mles n
  let t1 := Sp.absorb transcript claimed
  let st0 : ProverState F S :=
    { tables := mles.map (fun f => f.table)
      vars_left := mles.map (fun f => f.num_vars)
      const_prod := 1
      transcript := t1
      msgs := [] }
  let stF ← (List.range n).foldlM (sumcheck_prove_round Sp n) st0
  pure (SumcheckProof.new claimed stF.msgs, stF.transcript)

/-- The round loop of `sumcheck_verify`: absorb the raw evaluations, check
`evals[0] + evals[1]` against the expected value (an out-of-range index is
an abort), squeeze the challenge, interpolate the next expected value (the
`unwrap` on the interpolation result turns its error into an abort), and
finish with the oracle comparison. -/
def sumcheck_verify_loop (Sp : TranscriptSponge F S) (oracle_query : F) :
    List (UnivariateEvals F) → F → S → Option Bool
  | [], expected, _ =>
      if expected ≠ oracle_query then some false else some true
  | prover_message :: rest, expected, t => do
      let raw_evals := prover_message.get_raw_evals
      let t2 := Sp.absorbElements t raw_evals
      let e0 ← raw_evals.get? 0
      let e1 ← raw_evals.get? 1
      if e0 + e1 ≠ expected then some false
      else
        let rt := Sp.squeeze t2
        match prover_message.evaluate_at_a_point rt.1 with
        | none => none
        | some (Except.error _) => none
        | some (Except.ok v) => sumcheck_verify_loop Sp oracle_query rest v rt.2

/-- `sumcheck_verify` of `sumcheck.rs`. -/
def sumcheck_verify (Sp : TranscriptSponge F S) (transcript : S)
    (sumcheck_proof : SumcheckProof F) (oracle_query : F) : Option Bool :=
  sumcheck_verify_loop Sp oracle_query
    sumcheck_proof.get_prover_sumcheck_round_messages
    sumcheck_proof.get_claimed_sum
    (Sp.absorb transcript sumcheck_proof.get_claimed_sum)

/-- A degenerate but contract-conforming sponge: ignores all absorbs and
always squeezes `0`.  The trait of `transcript/mod.rs` only demands
determinism, which this satisfies. -/
def zeroSponge (F : Type) [Field F] : TranscriptSponge F Unit :=
  { absorb := fun s _ => s
    absorbElements := fun s _ => s
    squeeze := fun s => (0, s) }

/-- A sponge with nontrivial state: a running accumulator over absorbs. -/
def sumSponge (F : Type) [Field F] : TranscriptSponge F F :=
  { absorb := fun s x => s + x + 1
    absorbElements := fun s xs => xs.foldl (fun a x => a + x + 1) s
    squeeze := fun s => (s, s + 1) }

instance fact_prime_5 : Fact (Nat.Prime 5) := ⟨by norm_num⟩

instance fact_prime_3 : Fact (Nat.Prime 3) := ⟨by norm_num⟩

instance fact_prime_11 : Fact (Nat.Prime 11) := ⟨by norm_num⟩

/-!  Specification-side definitions, written from the words of the spec. -/

/-- The reference hypercube sum of the spec:
`H = Σ over the n-bit hypercube of Π over factors of the factor at the
leading bits of the point` (an absent table entry is the implicit zero). -/
def specHypercubeSum (mles : List (MultilinearExtension F)) (n : Nat) : F :=
  ∑ b ∈ Finset.range (2 ^ n),
    (mles.map (fun f => (f.get (b >>> (n - f.num_vars))).getD 0)).prod

/-!  Generic helper lemmas about folds and sums. -/

theorem foldlM_option_eq_foldl {α β : Type} (f : β → α → Option β) (g : β → α → β)
    (l : List α) (h : ∀ b : β, ∀ a ∈ l, f b a = some (g b a)) (b : β) :
    l.foldlM f b = some (l.foldl g b) := by
  induction l generalizing b with
  | nil => rfl
  | cons x xs ih =>
    rw [List.foldlM_cons, h b x (List.mem_cons_self x xs)]
    simpa using ih (fun b a ha => h b a (List.mem_cons_of_mem _ ha)) (g b x)

theorem foldl_add_eq_sum (g : Nat → F) (n : Nat) (a : F) :
    (List.range n).foldl (fun s i => s + g i) a = a + ∑ i ∈ Finset.range n, g i := by
  induction n generalizing a with
  | zero => simp
  | succ m ih =>
    rw [List.range_succ, List.foldl_append, ih, Finset.sum_range_succ]
    simp [add_assoc]

theorem foldl_mul_eq_prod {α : Type} (g : α → F) (l : List α) (c : F) :
    l.foldl (fun p x => p * g x) c = c * (l.map g).prod := by
  induction l generalizing c with
  | nil => simp
  | cons x xs ih => simp [ih, mul_assoc]

theorem sum_range_split (g : Nat → F) (a b : Nat) :
    ∑ i ∈ Finset.range (a + b), g i =
      (∑ i ∈ Finset.range a, g i) + ∑ i ∈ Finset.range b, g (a + i) := by
  induction b with
  | zero => simp
  | succ m ih =>
    rw [← Nat.add_assoc, Finset.sum_range_succ, Finset.sum_range_succ, ih, add_assoc]

theorem le_foldl_max (l : List Nat) (a : Nat) : a ≤ l.foldl max a := by
  induction l generalizing a with
  | nil => exact Nat.le_refl a
  | cons x xs ih => exact le_trans (Nat.le_max_left a x) (ih (max a x))

theorem mem_le_foldl_max (l : List Nat) (a x : Nat) (hx : x ∈ l) : x ≤ l.foldl max a := by
  induction l generalizing a with
  | nil => cases hx
  | cons y ys ih =>
    rcases List.mem_cons.mp hx with h | h
    · subst h
      exact le_trans (Nat.le_max_right a x) (le_foldl_max ys (max a x))
    · exact ih (max a y) h

theorem num_vars_le_maxNumVars (mles : List (MultilinearExtension F))
    (f : MultilinearExtension F) (hf : f ∈ mles) : f.num_vars ≤ maxNumVars mles :=
  mem_le_foldl_max _ 0 _ (List.mem_map_of_mem (fun f => f.num_vars) hf)

/-!  Basic facts about `get` and table indexing. -/

theorem shiftRight_lt_pow {b n v : Nat} (hb : b < 2 ^ n) (hv : v ≤ n) :
    b >>> (n - v) < 2 ^ v := by
  rw [Nat.shiftRight_eq_div_pow]
  have h2 : (0:Nat) < 2 ^ (n - v) := Nat.pos_pow_of_pos _ (by norm_num)
  rw [Nat.div_lt_iff_lt_mul h2, ← Nat.pow_add]
  have : v + (n - v) = n := by omega
  rw [this]
  exact hb

/-- Concrete values of the ceiling logarithm, for evaluating `new`:
`Nat.clog` is defined by well-founded recursion, so concrete instances are
derived from its adjunction with `Nat.pow` instead of by reduction. -/
theorem clog2_eq_of (L k : Nat) (hup : L ≤ 2 ^ k)
    (hlo : k = 0 ∨ 2 ^ (k - 1) < L) : Nat.clog 2 L = k := by
  have h1 : Nat.clog 2 L ≤ k := (Nat.le_pow_iff_clog_le (by norm_num)).mp hup
  rcases hlo with h | h
  · omega
  · have h2 : k - 1 < Nat.clog 2 L := (Nat.pow_lt_iff_lt_clog (by norm_num)).mp h
    omega

theorem new_eq_mk (t : List F) (k : Nat) (hup : t.length ≤ 2 ^ k)
    (hlo : k = 0 ∨ 2 ^ (k - 1) < t.length) :
    MultilinearExtension.new t = ⟨t, k⟩ := by
  unfold MultilinearExtension.new
  rw [clog2_eq_of _ k hup hlo]

theorem new_num_vars (t : List F) :
    (MultilinearExtension.new t).num_vars = Nat.clog 2 t.length := rfl

theorem new_table (t : List F) :
    (MultilinearExtension.new t).bookkeping_table = t := rfl

theorem get_eq_some_getD (f : MultilinearExtension F) (idx : Nat)
    (h : idx < 2 ^ f.num_vars) :
    f.get idx = some (f.bookkeping_table.getD idx 0) := by
  unfold MultilinearExtension.get
  rw [if_neg (by omega)]
  by_cases hlen : idx ≥ f.bookkeping_table.length
  · rw [if_pos hlen, List.getD_eq_default _ _ hlen]
  · rw [if_neg hlen]

/-- With `n` at least every arity, the brute-force sum never aborts and
computes the reference value. -/
theorem sum_over_hypercube_eq (mles : List (MultilinearExtension F)) (n : Nat)
    (hn : ∀ f ∈ mles, f.num_vars ≤ n) :
    sum_over_hypercube mles n = some (specHypercubeSum mles n) := by
  unfold sum_over_hypercube specHypercubeSum
  have hstep : ∀ (s : F), ∀ idx ∈ List.range (2 ^ n),
      (do
        let prod ← mles.foldlM
          (fun prod f => do
            let v ← f.get (idx >>> (n - f.num_vars))
            pure (prod * v))
          (1 : F)
        pure (s + prod) : Option F) =
      some (s + (mles.map (fun f => (f.get (idx >>> (n - f.num_vars))).getD 0)).prod) := by
    intro s idx hidx
    have hidx' : idx < 2 ^ n := List.mem_range.mp hidx
    have hin : mles.foldlM
        (fun prod f => do
          let v ← f.get (idx >>> (n - f.num_vars))
          pure (prod * v))
        (1 : F) =
        some (mles.foldl
          (fun prod f => prod * (f.get (idx >>> (n - f.num_vars))).getD 0) (1 : F)) := by
      apply foldlM_option_eq_foldl
      intro b f hf
      have hg := get_eq_some_getD f (idx >>> (n - f.num_vars))
        (shiftRight_lt_pow hidx' (hn f hf))
      rw [hg]
      simp [hg]
    rw [hin]
    simp [foldl_mul_eq_prod]
  rw [foldlM_option_eq_foldl _
    (fun s idx => s + (mles.map (fun f => (f.get (idx >>> (n - f.num_vars))).getD 0)).prod)
    _ hstep]
  rw [foldl_add_eq_sum]
  simp

/-- C5: the claimed sum recorded by `sumcheck_prove` is the reference value
`H = Σ over all n-bit boolean points of the product of the factors at the
leading bits`, with `n` the maximum factor arity, and this value is absorbed
into the transcript before the round loop produces any round message. -/
theorem C5_claimed_sum_is_reference (Sp : TranscriptSponge F S) (t0 : S)
    (mles : List (MultilinearExtension F)) :
    sumcheck_prove Sp t0 mles =
      ((List.range (maxNumVars mles)).foldlM
          (sumcheck_prove_round Sp (maxNumVars mles))
          { tables := mles.map (fun f => f.table)
            vars_left := mles.map (fun f => f.num_vars)
            const_prod := 1
            transcript := Sp.absorb t0 (specHypercubeSum mles (maxNumVars mles))
            msgs := [] }).map
        (fun stF =>
          (SumcheckProof.new (specHypercubeSum mles (maxNumVars mles)) stF.msgs,
            stF.transcript)) := by
  have hsum := sum_over_hypercube_eq mles (maxNumVars mles)
    (fun f hf => num_vars_le_maxNumVars mles f hf)
  simp only [sumcheck_prove, hsum]
  cases hfold : (List.range (maxNumVars mles)).foldlM
      (sumcheck_prove_round Sp (maxNumVars mles))
      { tables := mles.map (fun f => f.table)
        vars_left := mles.map (fun f => f.num_vars)
        const_prod := 1
        transcript := Sp.absorb t0 (specHypercubeSum mles (maxNumVars mles))
        msgs := [] } with
  | none => simp [hfold]
  | some stF => simp [hfold]

/-- C6: `new` sets `num_vars` to the base-2 ceiling logarithm of the table
length, and `get` is three-way: the stored value below the length, the
implicit zero between the length and `2 ^ num_vars`, and out-of-range
(`none`) from `2 ^ num_vars` on. -/
theorem C6_mle_range_invariant (t : List F) (idx : Nat) :
    (MultilinearExtension.new t).num_vars = Nat.clog 2 t.length ∧
    (idx < t.length →
      (MultilinearExtension.new t).get idx = some (t.getD idx 0)) ∧
    (t.length ≤ idx → idx < 2 ^ (MultilinearExtension.new t).num_vars →
      (MultilinearExtension.new t).get idx = some 0) ∧
    (2 ^ (MultilinearExtension.new t).num_vars ≤ idx →
      (MultilinearExtension.new t).get idx = none) := by
  have hle : t.length ≤ 2 ^ Nat.clog 2 t.length := Nat.le_pow_clog (by norm_num) _
  refine ⟨rfl, ?_, ?_, ?_⟩
  · intro hidx
    simp only [MultilinearExtension.get, new_num_vars, new_table]
    rw [if_neg (by omega), if_neg (by omega)]
  · intro h1 h2
    rw [new_num_vars] at h2
    simp only [MultilinearExtension.get, new_num_vars, new_table]
    rw [if_neg (by omega), if_pos (by omega)]
  · intro h
    rw [new_num_vars] at h
    simp only [MultilinearExtension.get, new_num_vars, new_table]
    rw [if_pos (by omega)]

/-- Witness for C6 at table `[1, 2, 3]` over `ZMod 5` (`num_vars = 2`):
index 1 is stored, index 3 is the implicit zero, index 4 is out of range. -/
theorem C6_mle_range_invariant_witness :
    (MultilinearExtension.new ([1, 2, 3] : List (ZMod 5))).get 1 = some 2 ∧
    (MultilinearExtension.new ([1, 2, 3] : List (ZMod 5))).get 3 = some 0 ∧
    (MultilinearExtension.new ([1, 2, 3] : List (ZMod 5))).get 4 = none := by
  have hnew : MultilinearExtension.new ([1, 2, 3] : List (ZMod 5)) = ⟨[1, 2, 3], 2⟩ :=
    new_eq_mk _ 2 (by norm_num) (Or.inr (by norm_num))
  refine ⟨?_, ?_, ?_⟩
  · have h := (C6_mle_range_invariant ([1, 2, 3] : List (ZMod 5)) 1).2.1 (by norm_num)
    simpa using h
  · exact (C6_mle_range_invariant ([1, 2, 3] : List (ZMod 5)) 3).2.2.1 (by norm_num)
      (by simp [hnew])
  · exact (C6_mle_range_invariant ([1, 2, 3] : List (ZMod 5)) 4).2.2.2
      (by simp [hnew])

/-- C7: on a table of even length `2h`, `restrict_first_var` produces the
length-`h` table with entries `(1 - r) * old[i] + r * old[i + h]`, and on a
length-1 table it is the identity. -/
theorem C7_restrict_first_var (table : List F) (r : F) (h : Nat) :
    (table.length = 2 * h →
      (MultilinearExtension.restrict_first_var table r).length = h ∧
      ∀ i < h, (MultilinearExtension.restrict_first_var table r).get? i =
        some ((1 - r) * table.getD i 0 + r * table.getD (i + h) 0)) ∧
    (table.length = 1 → MultilinearExtension.restrict_first_var table r = table) := by
  constructor
  · intro hlen
    unfold MultilinearExtension.restrict_first_var
    rw [if_neg (by omega)]
    have hhalf : table.length / 2 = h := by omega
    constructor
    · simp [hhalf]
    · intro i hi
      rw [List.get?_map, List.get?_range (by omega : i < table.length / 2)]
      simp [hhalf]
  · intro hlen
    unfold MultilinearExtension.restrict_first_var
    rw [if_pos hlen]

/-- Witness for C7 at table `[1, 2, 3, 4]` over `ZMod 5` with `r = 2`,
`h = 2`: the new table is `[0, 1]`; and `[7]` is untouched. -/
theorem C7_restrict_first_var_witness :
    (MultilinearExtension.restrict_first_var ([1, 2, 3, 4] : List (ZMod 5)) 2).get? 0 =
      some ((1 - 2) * 1 + 2 * 3) ∧
    (MultilinearExtension.restrict_first_var ([1, 2, 3, 4] : List (ZMod 5)) 2).length = 2 ∧
    MultilinearExtension.restrict_first_var ([7] : List (ZMod 5)) 2 = [7] := by
  refine ⟨?_, ?_, ?_⟩
  · have h := ((C7_restrict_first_var ([1, 2, 3, 4] : List (ZMod 5)) 2 2).1
      (by norm_num)).2 0 (by norm_num)
    simpa using h
  · exact ((C7_restrict_first_var ([1, 2, 3, 4] : List (ZMod 5)) 2 2).1 (by norm_num)).1
  · exact (C7_restrict_first_var ([7] : List (ZMod 5)) 2 0).2 (by norm_num)

/-- C10: on the length-3 table `[1, 1, 1]` (so `num_vars = 2` and the
length is below `2 ^ 2`), the first round of the prover reads
`tab[base_idx + half_sz] = tab[3]` past the end of the cloned table and
aborts: `sumcheck_prove` returns `none` instead of a proof. -/
theorem C10_prover_aborts_on_non_pow2 :
    (MultilinearExtension.new ([1, 1, 1] : List (ZMod 5))).num_vars = 2 ∧
    ([1, 1, 1] : List (ZMod 5)).length < 2 ^ 2 ∧
    sumcheck_prove (zeroSponge (ZMod 5)) () [MultilinearExtension.new [1, 1, 1]] = none := by
  have hnew : MultilinearExtension.new ([1, 1, 1] : List (ZMod 5)) = ⟨[1, 1, 1], 2⟩ :=
    new_eq_mk _ 2 (by norm_num) (Or.inr (by norm_num))
  refine ⟨by rw [hnew], by norm_num, ?_⟩
  rw [hnew]
  decide

/-- C2: the failing input for the interpolation error path.  Over a field
of characteristic 3, evaluating `[0, 0, 0, 0]` (nodes `0..3`) at the point
`2` encounters the zero denominator `(0-1)*(0-2)*(0-3) = 0` at node `0`
(first conjunct is that very denominator as the source computes it), and
the evaluation aborts (`none`, the failed `invert().unwrap()`) instead of
returning the recoverable `Except.error` the spec promises. -/
theorem C2_zero_denominator_aborts :
    (((List.range 0) ++ (List.range' 1 3)).foldl
        (fun (nd : ZMod 3 × ZMod 3) (val : Nat) =>
          (nd.1 * (2 - (val : ZMod 3)), nd.2 * ((0 : ZMod 3) - (val : ZMod 3))))
        (1, 1)).2 = 0 ∧
    (UnivariateEvals.new ([0, 0, 0, 0] : List (ZMod 3))).evaluate_at_a_point 2 = none := by
  refine ⟨by decide, by rfl⟩

/-!  The direct (reference) evaluation of multilinear extensions, the
challenge replay, and the prover-state abstractions used to settle the
protocol-level claims. -/

/-- The multilinear equality weight: for `rs = [r_1, ..., r_v]` and a point
`b < 2 ^ v` whose most significant bit corresponds to `r_1`, the product
over positions of `r_j` or `1 - r_j` according to the bit of `b`. -/
def eqWeight : List F → Nat → F
  | [], _ => 1
  | r :: rest, b =>
      (if (b >>> rest.length) % 2 = 1 then r else 1 - r) *
        eqWeight rest (b % 2 ^ rest.length)

/-- Direct evaluation of a table as a multilinear polynomial. -/
def evalTable (t : List F) (v : Nat) (rs : List F) : F :=
  ∑ b ∈ Finset.range (2 ^ v), eqWeight rs b * t.getD b 0

/-- Direct evaluation of the multilinear extension of `f` at a point: the
eq-weighted sum over the hypercube, the defining formula of an MLE. -/
def directEval (f : MultilinearExtension F) (rs : List F) : F :=
  ∑ b ∈ Finset.range (2 ^ f.num_vars), eqWeight rs b * (f.get b).getD 0

/-- The direct evaluation of the product polynomial at a challenge vector:
each factor reads the leading bits, i.e. the first `n_i` challenges. -/
def productDirectEval (mles : List (MultilinearExtension F)) (rs : List F) : F :=
  (mles.map (fun f => directEval f (rs.take f.num_vars))).prod

/-- Replaying the transcript over the round messages of a proof yields the
challenge sequence the protocol derives. -/
def challengeReplay (Sp : TranscriptSponge F S) : S → List (UnivariateEvals F) → List F
  | _, [] => []
  | t, m :: rest =>
      (Sp.squeeze (Sp.absorbElements t m.evals)).1 ::
        challengeReplay Sp (Sp.squeeze (Sp.absorbElements t m.evals)).2 rest

/-- The challenge vector the protocol derives from a proof: absorb the
claimed sum, then alternate absorbing each round message and squeezing. -/
def sumcheck_challenges (Sp : TranscriptSponge F S) (t0 : S) (proof : SumcheckProof F) :
    List F :=
  challengeReplay Sp (Sp.absorb t0 proof.claimed_sum) proof.prover_sumcheck_round_messages

/-- Iterated restriction of a table by a challenge list. -/
def foldRestrict (table : List F) (rs : List F) : List F :=
  rs.foldl (fun t r => MultilinearExtension.restrict_first_var t r) table

/-- The constant accumulator the prover should hold after round `i - 1`:
the product, over the factors whose arity is at most `i`, of the single
entry of their fully restricted table. -/
def constProdSpec (mles : List (MultilinearExtension F)) (i : Nat) (rs : List F) : F :=
  ((mles.filter (fun f => f.num_vars ≤ i)).map
    (fun f => (foldRestrict f.bookkeping_table (rs.take f.num_vars)).getD 0 0)).prod

/-- The plain hypercube sum of a prover state: constant times the product
of the active tables, each addressed by dropping the trailing bits its own
remaining-variable count cannot see.  With `m` global variables remaining,
this is the value the next round message must split. -/
def stateSum (cp : F) (active : List (List F × Nat)) (m : Nat) : F :=
  ∑ pt ∈ Finset.range (2 ^ m), cp * (active.map (fun tf => tf.1.getD (pt >>> (m - tf.2)) 0)).prod

/-- The round polynomial as a function of the evaluation point `a`: the
linear interpolation of the two halves of every active table, summed over
the remaining points, exactly the quantity `eval_round_univariate` tabulates
at the integer nodes. -/
def roundPolyEval (cp : F) (active : List (List F × Nat)) (m : Nat) (a : F) : F :=
  ∑ pt ∈ Finset.range (2 ^ m),
    cp * (active.map (fun tf =>
      (1 - a) * tf.1.getD (pt >>> (m - (tf.2 - 1))) 0 +
        a * tf.1.getD ((pt >>> (m - (tf.2 - 1))) + 2 ^ (tf.2 - 1)) 0)).prod

/-- The active pairs of a prover state, as the prover collects them. -/
def activePairs (st : ProverState F S) : List (List F × Nat) :=
  (st.tables.zip st.vars_left).filter (fun tv => tv.2 > 0)

/-- An accepting trace of the verifier round loop: every round check
passes, every interpolation succeeds, and the loop ends in the given
expected value and transcript state. -/
def VerifyOk (Sp : TranscriptSponge F S) :
    List (UnivariateEvals F) → F → S → F → S → Prop
  | [], e, t, efin, tfin => efin = e ∧ tfin = t
  | m :: rest, e, t, efin, tfin =>
      (∃ e0 e1, m.evals.get? 0 = some e0 ∧ m.evals.get? 1 = some e1 ∧ e0 + e1 = e) ∧
      (∃ v, m.evaluate_at_a_point (Sp.squeeze (Sp.absorbElements t m.evals)).1 =
          some (Except.ok v) ∧
        VerifyOk Sp rest v (Sp.squeeze (Sp.absorbElements t m.evals)).2 efin tfin)

/-!  Restriction lemmas. -/

theorem two_pow_ne_one {v : Nat} (hv : 1 ≤ v) : (2:Nat) ^ v ≠ 1 := by
  have h := Nat.pow_le_pow_right (by norm_num : 0 < 2) hv
  simpa using by omega

theorem two_pow_succ_sub (v : Nat) (hv : 1 ≤ v) : (2:Nat) ^ v = 2 ^ (v - 1) + 2 ^ (v - 1) := by
  conv_lhs => rw [show v = (v - 1) + 1 by omega]
  rw [pow_succ]
  omega

theorem getD_map_range {γ : Type} (g : Nat → γ) (h i : Nat) (d : γ) (hi : i < h) :
    (((List.range h).map g).getD i d) = g i := by
  show (((List.range h).map g).get? i).getD d = g i
  rw [List.get?_map, List.get?_range hi]
  rfl

theorem restrict_length_pow (tab : List F) (r : F) (v : Nat) (hv : 1 ≤ v)
    (hlen : tab.length = 2 ^ v) :
    (MultilinearExtension.restrict_first_var tab r).length = 2 ^ (v - 1) := by
  unfold MultilinearExtension.restrict_first_var
  rw [if_neg (by rw [hlen]; exact two_pow_ne_one hv)]
  rw [List.length_map, List.length_range, hlen]
  rw [two_pow_succ_sub v hv]
  omega

theorem restrict_getD (tab : List F) (r : F) (v : Nat) (hv : 1 ≤ v)
    (hlen : tab.length = 2 ^ v) (i : Nat) (hi : i < 2 ^ (v - 1)) :
    (MultilinearExtension.restrict_first_var tab r).getD i 0 =
      (1 - r) * tab.getD i 0 + r * tab.getD (i + 2 ^ (v - 1)) 0 := by
  unfold MultilinearExtension.restrict_first_var
  rw [if_neg (by rw [hlen]; exact two_pow_ne_one hv)]
  have hhalf : tab.length / 2 = 2 ^ (v - 1) := by
    rw [hlen, two_pow_succ_sub v hv]; omega
  rw [hhalf]
  exact getD_map_range _ _ _ _ hi

theorem foldRestrict_nil (t : List F) : foldRestrict t [] = t := rfl

theorem foldRestrict_cons (t : List F) (r : F) (rs : List F) :
    foldRestrict t (r :: rs) = foldRestrict (MultilinearExtension.restrict_first_var t r) rs :=
  rfl

theorem foldRestrict_append (t : List F) (rs1 rs2 : List F) :
    foldRestrict t (rs1 ++ rs2) = foldRestrict (foldRestrict t rs1) rs2 := by
  unfold foldRestrict
  rw [List.foldl_append]

theorem foldRestrict_length (t : List F) (rs : List F) (v : Nat)
    (hlen : t.length = 2 ^ v) (hrs : rs.length ≤ v) :
    (foldRestrict t rs).length = 2 ^ (v - rs.length) := by
  induction rs generalizing t v with
  | nil => simpa [foldRestrict_nil] using hlen
  | cons r rest ih =>
    rw [foldRestrict_cons]
    have hv : 1 ≤ v := by simp at hrs; omega
    have := ih (MultilinearExtension.restrict_first_var t r) (v - 1)
      (restrict_length_pow t r v hv hlen) (by simp at hrs ⊢; omega)
    rw [this]
    congr 1
    simp
    omega

/-!  Shift and modulus index facts. -/

theorem shiftRight_eq_zero {b k : Nat} (hb : b < 2 ^ k) : b >>> k = 0 := by
  rw [Nat.shiftRight_eq_div_pow]
  exact Nat.div_eq_of_lt hb

theorem shiftRight_add_pow {b k j : Nat} (hkj : k ≤ j) (hb : b < 2 ^ j) :
    (2 ^ j + b) >>> k = 2 ^ (j - k) + b >>> k := by
  rw [Nat.shiftRight_eq_div_pow, Nat.shiftRight_eq_div_pow]
  have hsplit : (2:Nat) ^ j = 2 ^ (j - k) * 2 ^ k := by
    rw [← pow_add]
    congr 1
    omega
  rw [hsplit, Nat.add_comm, Nat.add_mul_div_right _ _ (Nat.pos_pow_of_pos k (by norm_num))]
  omega

theorem add_pow_mod {b k : Nat} (hb : b < 2 ^ k) : (2 ^ k + b) % 2 ^ k = b := by
  rw [Nat.add_mod_left]
  exact Nat.mod_eq_of_lt hb

theorem get?_eq_some_getD {α : Type} (l : List α) (d : α) (i : Nat) (h : i < l.length) :
    l.get? i = some (l.getD i d) := by
  show l.get? i = some ((l.get? i).getD d)
  rw [List.get?_eq_get h]
  rfl

theorem foldlM_push_eq_map {α β : Type} (h : α → Option β) (g : α → β) (l : List α)
    (hall : ∀ a ∈ l, h a = some (g a)) (acc : List β) :
    l.foldlM (fun evals a => do
      let s ← h a
      pure (evals ++ [s])) acc = some (acc ++ l.map g) := by
  induction l generalizing acc with
  | nil => simp
  | cons x xs ih =>
    rw [List.foldlM_cons, hall x (List.mem_cons_self x xs)]
    show xs.foldlM _ (acc ++ [g x]) = _
    rw [ih (fun a ha => hall a (List.mem_cons_of_mem _ ha)) (acc ++ [g x])]
    simp

theorem prod_filter_split {α : Type} (p : α → Bool) (g : α → F) (l : List α) :
    (l.map g).prod =
      ((l.filter p).map g).prod * ((l.filter (fun a => !(p a))).map g).prod := by
  induction l with
  | nil => simp
  | cons x xs ih =>
    by_cases h : p x
    · simp only [List.map_cons, List.prod_cons, List.filter_cons, h]
      simp only [Bool.not_true, Bool.false_eq_true, if_false, if_true, List.map_cons,
        List.prod_cons, ih]
      ring
    · have h' : p x = false := by simpa using h
      simp only [List.map_cons, List.prod_cons, List.filter_cons, h', Bool.not_false,
        if_true, Bool.false_eq_true, if_false, List.map_cons, List.prod_cons, ih]
      ring

theorem foldl_if_mul {α : Type} (p : α → Prop) [DecidablePred p] (g : α → F)
    (l : List α) (c : F) :
    l.foldl (fun cp a => if p a then cp * g a else cp) c =
      c * ((l.filter (fun a => decide (p a))).map g).prod := by
  induction l generalizing c with
  | nil => simp
  | cons x xs ih =>
    by_cases h : p x
    · simp only [List.foldl_cons, if_pos h, List.filter_cons, decide_eq_true_eq, h,
        if_true, List.map_cons, List.prod_cons, ih]
      ring
    · simp only [List.foldl_cons, if_neg h, List.filter_cons, decide_eq_true_eq, h,
        if_false, ih]

theorem foldl_max_attained (l : List Nat) (a : Nat) :
    l.foldl max a = a ∨ l.foldl max a ∈ l := by
  induction l generalizing a with
  | nil => left; rfl
  | cons x xs ih =>
    rcases ih (max a x) with h | h
    · rcases max_choice a x with hm | hm
      · left
        rw [List.foldl_cons, h, hm]
      · right
        rw [List.foldl_cons, h, hm]
        exact List.mem_cons_self x xs
    · right
      exact List.mem_cons_of_mem _ h

theorem maxNumVars_attained (mles : List (MultilinearExtension F))
    (h : 1 ≤ maxNumVars mles) :
    ∃ f ∈ mles, f.num_vars = maxNumVars mles := by
  rcases foldl_max_attained (mles.map (fun f => f.num_vars)) 0 with h0 | hmem
  · exfalso
    unfold maxNumVars at h
    omega
  · rcases List.mem_map.mp hmem with ⟨f, hf, hval⟩
    exact ⟨f, hf, hval⟩

/-!  Direct evaluation versus iterated restriction. -/

theorem evalTable_restrict_step (t : List F) (r : F) (rest : List F) (v : Nat)
    (hv : 1 ≤ v) (hlen : t.length = 2 ^ v) (hrest : rest.length = v - 1) :
    evalTable (MultilinearExtension.restrict_first_var t r) (v - 1) rest =
      evalTable t v (r :: rest) := by
  unfold evalTable
  rw [two_pow_succ_sub v hv, sum_range_split, ← Finset.sum_add_distrib]
  apply Finset.sum_congr rfl
  intro b hb
  have hb' : b < 2 ^ (v - 1) := Finset.mem_range.mp hb
  rw [restrict_getD t r v hv hlen b hb']
  have h1 : eqWeight (r :: rest) b = (1 - r) * eqWeight rest b := by
    simp only [eqWeight, hrest]
    rw [shiftRight_eq_zero hb', Nat.mod_eq_of_lt hb']
    norm_num
  have h2 : eqWeight (r :: rest) (2 ^ (v - 1) + b) = r * eqWeight rest b := by
    simp only [eqWeight, hrest]
    rw [shiftRight_add_pow (Nat.le_refl _) hb', shiftRight_eq_zero hb', add_pow_mod hb']
    norm_num
  rw [h1, h2]
  ring

theorem foldRestrict_getD_eq_evalTable (t : List F) (rs : List F) (v : Nat)
    (hlen : t.length = 2 ^ v) (hrs : rs.length = v) :
    (foldRestrict t rs).getD 0 0 = evalTable t v rs := by
  induction rs generalizing t v with
  | nil =>
    have hv : v = 0 := by simpa using hrs.symm
    subst hv
    simp [foldRestrict_nil, evalTable, eqWeight]
  | cons r rest ih =>
    have hlr : rest.length + 1 = v := by simpa using hrs
    have hv : 1 ≤ v := by omega
    rw [foldRestrict_cons]
    rw [ih (MultilinearExtension.restrict_first_var t r) (v - 1)
      (restrict_length_pow t r v hv hlen) (by omega)]
    exact evalTable_restrict_step t r rest v hv hlen (by omega)

theorem directEval_eq_evalTable (f : MultilinearExtension F) (rs : List F) :
    directEval f rs = evalTable f.bookkeping_table f.num_vars rs := by
  unfold directEval evalTable
  apply Finset.sum_congr rfl
  intro b hb
  congr 1
  rw [get_eq_some_getD f b (Finset.mem_range.mp hb)]
  rfl

/-- Once every factor has exhausted its variables, the constant accumulator
is the direct evaluation of the product polynomial. -/
theorem constProdSpec_eq_productDirectEval (mles : List (MultilinearExtension F))
    (i : Nat) (rs : List F)
    (hw : ∀ f ∈ mles, f.bookkeping_table.length = 2 ^ f.num_vars)
    (hl : ∀ f ∈ mles, f.num_vars ≤ i) (hrs : ∀ f ∈ mles, f.num_vars ≤ rs.length) :
    constProdSpec mles i rs = productDirectEval mles rs := by
  unfold constProdSpec productDirectEval
  rw [List.filter_eq_self.mpr (fun f hf => by simpa using hl f hf)]
  apply congrArg List.prod
  apply List.map_congr_left
  intro f hf
  rw [foldRestrict_getD_eq_evalTable f.bookkeping_table (rs.take f.num_vars) f.num_vars
    (hw f hf) (by rw [List.length_take]; exact min_eq_left (hrs f hf))]
  rw [directEval_eq_evalTable]

/-!  The round-message lemmas: the prover tabulates the round polynomial,
its node values at 0 and 1 split the state sum, and its value at the
challenge is the next state sum. -/

/-- The working table of a factor after the challenges in `rs`: the
original table restricted by the first `num_vars` of them. -/
def tableSpec (f : MultilinearExtension F) (rs : List F) : List F :=
  foldRestrict f.bookkeping_table (rs.take f.num_vars)

/-- The active factors at round `i`, derived from the original factors. -/
def activeSpec (mles : List (MultilinearExtension F)) (i : Nat) (rs : List F) :
    List (List F × Nat) :=
  (mles.filter (fun f => decide (i < f.num_vars))).map
    (fun f => (tableSpec f rs, f.num_vars - i))

theorem pairs_filter_eq_activeSpec (mles : List (MultilinearExtension F))
    (i : Nat) (rs : List F) :
    ((mles.map (fun f => (tableSpec f rs, f.num_vars - i))).filter
      (fun tv => tv.2 > 0)) = activeSpec mles i rs := by
  rw [List.map_filter]
  unfold activeSpec
  congr 1
  apply List.filter_congr
  intro f _
  show decide (f.num_vars - i > 0) = decide (i < f.num_vars)
  rw [decide_eq_decide]
  omega

theorem eval_round_univariate_spec (cp : F) (active : List (List F × Nat)) (m : Nat)
    (hb : ∀ tf ∈ active, tf.1.length = 2 ^ tf.2 ∧ 1 ≤ tf.2 ∧ tf.2 ≤ m + 1) :
    eval_round_univariate cp active m =
      some ((List.range (active.length + 1)).map
        (fun alpha : Nat => roundPolyEval cp active m (alpha : F))) := by
  have hall : ∀ alpha ∈ List.range (active.length + 1),
      ((List.range (2 ^ m)).foldlM
        (fun sum point => do
          let prod ← active.foldlM
            (fun prod tf => do
              let low ← tf.1.get? (point >>> (m - (tf.2 - 1)))
              let high ← tf.1.get? ((point >>> (m - (tf.2 - 1))) + 2 ^ (tf.2 - 1))
              pure (prod * ((1 - (alpha : F)) * low + (alpha : F) * high)))
            cp
          pure (sum + prod))
        (0 : F)) = some (roundPolyEval cp active m (alpha : F)) := by
    intro alpha _
    have hmid : ∀ (s : F), ∀ pt ∈ List.range (2 ^ m),
        (do
          let prod ← active.foldlM
            (fun prod tf => do
              let low ← tf.1.get? (pt >>> (m - (tf.2 - 1)))
              let high ← tf.1.get? ((pt >>> (m - (tf.2 - 1))) + 2 ^ (tf.2 - 1))
              pure (prod * ((1 - (alpha : F)) * low + (alpha : F) * high)))
            cp
          pure (s + prod) : Option F) =
        some (s + cp * (active.map (fun tf =>
          (1 - (alpha : F)) * tf.1.getD (pt >>> (m - (tf.2 - 1))) 0 +
            (alpha : F) * tf.1.getD ((pt >>> (m - (tf.2 - 1))) + 2 ^ (tf.2 - 1)) 0)).prod) := by
      intro s pt hpt
      have hpt' : pt < 2 ^ m := List.mem_range.mp hpt
      have hinner : active.foldlM
          (fun prod tf => do
            let low ← tf.1.get? (pt >>> (m - (tf.2 - 1)))
            let high ← tf.1.get? ((pt >>> (m - (tf.2 - 1))) + 2 ^ (tf.2 - 1))
            pure (prod * ((1 - (alpha : F)) * low + (alpha : F) * high)))
          cp = some (active.foldl
            (fun prod tf => prod * ((1 - (alpha : F)) * tf.1.getD (pt >>> (m - (tf.2 - 1))) 0 +
              (alpha : F) * tf.1.getD ((pt >>> (m - (tf.2 - 1))) + 2 ^ (tf.2 - 1)) 0)) cp) := by
        apply foldlM_option_eq_foldl
        intro b tf htf
        obtain ⟨h1, h2, h3⟩ := hb tf htf
        have hbase : pt >>> (m - (tf.2 - 1)) < 2 ^ (tf.2 - 1) :=
          shiftRight_lt_pow hpt' (by omega)
        have hlen2 : tf.1.length = 2 ^ (tf.2 - 1) + 2 ^ (tf.2 - 1) := by
          rw [h1]
          exact two_pow_succ_sub tf.2 h2
        have hlow : pt >>> (m - (tf.2 - 1)) < tf.1.length := by
          rw [hlen2]
          exact Nat.lt_add_right _ hbase
        have hhigh : (pt >>> (m - (tf.2 - 1))) + 2 ^ (tf.2 - 1) < tf.1.length := by
          rw [hlen2]
          exact Nat.add_lt_add_right hbase _
        rw [get?_eq_some_getD tf.1 0 _ hlow, get?_eq_some_getD tf.1 0 _ hhigh]
        rfl
      rw [hinner, foldl_mul_eq_prod]
      rfl
    rw [foldlM_option_eq_foldl _
      (fun s pt => s + cp * (active.map (fun tf =>
        (1 - (alpha : F)) * tf.1.getD (pt >>> (m - (tf.2 - 1))) 0 +
          (alpha : F) * tf.1.getD ((pt >>> (m - (tf.2 - 1))) + 2 ^ (tf.2 - 1)) 0)).prod)
      _ hmid 0]
    rw [foldl_add_eq_sum]
    unfold roundPolyEval
    congr 1
    rw [zero_add]
  have h1 := foldlM_push_eq_map _ _ (List.range (active.length + 1)) hall []
  rw [List.nil_append] at h1
  exact h1

theorem roundPoly_zero_add_one (cp : F) (active : List (List F × Nat)) (m : Nat)
    (hb : ∀ tf ∈ active, 1 ≤ tf.2 ∧ tf.2 ≤ m + 1) :
    roundPolyEval cp active m 0 + roundPolyEval cp active m 1 = stateSum cp active (m + 1) := by
  unfold roundPolyEval stateSum
  rw [show (2:Nat) ^ (m + 1) = 2 ^ m + 2 ^ m from by rw [pow_succ]; omega]
  rw [sum_range_split]
  congr 1
  · apply Finset.sum_congr rfl
    intro pt hpt
    congr 1
    apply congrArg List.prod
    apply List.map_congr_left
    intro tf htf
    obtain ⟨h2, h3⟩ := hb tf htf
    have hidx : m - (tf.2 - 1) = m + 1 - tf.2 := by omega
    rw [hidx]
    ring
  · apply Finset.sum_congr rfl
    intro pt hpt
    have hpt' : pt < 2 ^ m := Finset.mem_range.mp hpt
    congr 1
    apply congrArg List.prod
    apply List.map_congr_left
    intro tf htf
    obtain ⟨h2, h3⟩ := hb tf htf
    have hidx : m - (tf.2 - 1) = m + 1 - tf.2 := by omega
    have hsh : (2 ^ m + pt) >>> (m + 1 - tf.2) = (pt >>> (m + 1 - tf.2)) + 2 ^ (tf.2 - 1) := by
      rw [shiftRight_add_pow (by omega) hpt']
      have hx : m - (m + 1 - tf.2) = tf.2 - 1 := by omega
      rw [hx]
      omega
    rw [hidx, hsh]
    ring

theorem roundPoly_at_point (cp : F) (active : List (List F × Nat)) (m : Nat) (r : F)
    (hb : ∀ tf ∈ active, tf.1.length = 2 ^ tf.2 ∧ 1 ≤ tf.2 ∧ tf.2 ≤ m + 1) :
    roundPolyEval cp active m r =
      stateSum cp (active.map (fun tf =>
        (MultilinearExtension.restrict_first_var tf.1 r, tf.2 - 1))) m := by
  unfold roundPolyEval stateSum
  apply Finset.sum_congr rfl
  intro pt hpt
  have hpt' : pt < 2 ^ m := Finset.mem_range.mp hpt
  congr 1
  rw [List.map_map]
  apply congrArg List.prod
  apply List.map_congr_left
  intro tf htf
  obtain ⟨h1, h2, h3⟩ := hb tf htf
  show (1 - r) * tf.1.getD (pt >>> (m - (tf.2 - 1))) 0 +
      r * tf.1.getD ((pt >>> (m - (tf.2 - 1))) + 2 ^ (tf.2 - 1)) 0 =
    (MultilinearExtension.restrict_first_var tf.1 r).getD (pt >>> (m - (tf.2 - 1))) 0
  rw [restrict_getD tf.1 r tf.2 h2 h1 _ (shiftRight_lt_pow hpt' (by omega))]

theorem stateSum_filter_const (cp : F) (L : List (List F × Nat)) (m : Nat) :
    stateSum cp L m =
      stateSum
        (cp * ((L.filter (fun tf => !(decide (tf.2 > 0)))).map
          (fun tf => tf.1.getD 0 0)).prod)
        (L.filter (fun tf => tf.2 > 0)) m := by
  unfold stateSum
  apply Finset.sum_congr rfl
  intro pt hpt
  have hpt' : pt < 2 ^ m := Finset.mem_range.mp hpt
  rw [prod_filter_split (fun tf => decide (tf.2 > 0)) _ L]
  have hconst : ((L.filter (fun tf => !(decide (tf.2 > 0)))).map
      (fun tf => tf.1.getD (pt >>> (m - tf.2)) 0)).prod =
      ((L.filter (fun tf => !(decide (tf.2 > 0)))).map (fun tf => tf.1.getD 0 0)).prod := by
    apply congrArg List.prod
    apply List.map_congr_left
    intro tf htf
    have hz : tf.2 = 0 := by
      have := List.of_mem_filter htf
      simpa using this
    rw [hz, Nat.sub_zero, shiftRight_eq_zero hpt']
  rw [hconst]
  ring

/-!  Barycentric interpolation: the code of `evaluate_at_a_point`, applied
to the node values of a polynomial of bounded degree, recovers the value of
the polynomial at any point, provided the integer nodes stay distinct in
the field. -/

theorem foldl_pair_mul {α : Type} (f g : α → F) (l : List α) (a b : F) :
    l.foldl (fun (nd : F × F) x => (nd.1 * f x, nd.2 * g x)) (a, b) =
      (a * (l.map f).prod, b * (l.map g).prod) := by
  induction l generalizing a b with
  | nil => simp
  | cons x xs ih => simp [ih, mul_assoc]

theorem sequenceTerms_map_some {α β : Type} (f : α → Option β) (g : α → β) (l : List α)
    (h : ∀ a ∈ l, f a = some (g a)) :
    UnivariateEvals.sequenceTerms (l.map f) = some (l.map g) := by
  induction l with
  | nil => rfl
  | cons x xs ih =>
    rw [List.map_cons, List.map_cons]
    show (do
      let y ← f x
      let ys ← UnivariateEvals.sequenceTerms (xs.map f)
      pure (y :: ys)) = some (g x :: xs.map g)
    rw [h x (List.mem_cons_self x xs), ih (fun a ha => h a (List.mem_cons_of_mem _ ha))]
    rfl

theorem foldl_add_eq_head_sum (l : List F) (a : F) : l.foldl (· + ·) a = a + l.sum := by
  induction l generalizing a with
  | nil => simp
  | cons x xs ih => simp [ih, add_assoc]

theorem list_range_map_sum (g : Nat → F) (n : Nat) :
    ((List.range n).map g).sum = ∑ x ∈ Finset.range n, g x := by
  induction n with
  | zero => simp
  | succ m ih =>
    rw [List.range_succ, List.map_append, List.sum_append, Finset.sum_range_succ, ih]
    simp

/-- The node list the source iterates for node `x`: all nodes except `x`. -/
def nodesList (x d : Nat) : List Nat :=
  (List.range x) ++ (List.range' (x + 1) (d + 1 - (x + 1)))

theorem nodesList_nodup (x d : Nat) : (nodesList x d).Nodup := by
  unfold nodesList
  refine List.Nodup.append (List.nodup_range x) (List.nodup_range' (x + 1) _) ?_
  intro a ha hb
  rw [List.mem_range] at ha
  rw [List.mem_range'_1] at hb
  omega

theorem nodesList_toFinset (x d : Nat) (hx : x ≤ d) :
    (nodesList x d).toFinset = (Finset.range (d + 1)).erase x := by
  ext a
  simp only [nodesList, List.toFinset_append, Finset.mem_union, List.mem_toFinset,
    List.mem_range, List.mem_range'_1, Finset.mem_erase, Finset.mem_range]
  omega

theorem mem_nodesList {x d a : Nat} (hx : x ≤ d) (ha : a ∈ nodesList x d) :
    a ≤ d ∧ a ≠ x := by
  rcases List.mem_append.mp ha with h | h
  · rw [List.mem_range] at h
    omega
  · rw [List.mem_range'_1] at h
    omega

theorem nodes_den_ne_zero (x d : Nat) (hx : x ≤ d)
    (hinj : ∀ a b : Nat, a ≤ d → b ≤ d → (a : F) = (b : F) → a = b) :
    ((nodesList x d).map (fun m : Nat => (x : F) - (m : F))).prod ≠ 0 := by
  apply List.prod_ne_zero
  intro h0
  rcases List.mem_map.mp h0 with ⟨m, hm, hm0⟩
  obtain ⟨hmd, hmx⟩ := mem_nodesList hx hm
  exact hmx (hinj x m hx hmd (sub_eq_zero.mp hm0)).symm

theorem prod_nodesList (g : Nat → F) (x d : Nat) (hx : x ≤ d) :
    ((nodesList x d).map g).prod = ∏ j ∈ (Finset.range (d + 1)).erase x, g j := by
  rw [← nodesList_toFinset x d hx, List.prod_toFinset g (nodesList_nodup x d)]

theorem eval_lagrange_basis (s : Finset Nat) (v : Nat → F) (x : Nat) (r : F) :
    (Lagrange.basis s v x).eval r =
      (∏ j ∈ s.erase x, (r - v j)) * (∏ j ∈ s.erase x, (v x - v j))⁻¹ := by
  rw [show Lagrange.basis s v x = ∏ j ∈ s.erase x, Lagrange.basisDivisor (v x) (v j) from rfl]
  rw [Polynomial.eval_prod, ← Finset.prod_inv_distrib, ← Finset.prod_mul_distrib]
  apply Finset.prod_congr rfl
  intro j _
  simp only [Lagrange.basisDivisor, Polynomial.eval_mul, Polynomial.eval_C,
    Polynomial.eval_sub, Polynomial.eval_X]
  ring

theorem lagrange_sum_eval (P : Polynomial F) (d : Nat) (hdeg : P.natDegree ≤ d)
    (hinj : ∀ x y : Nat, x ≤ d → y ≤ d → (x : F) = (y : F) → x = y) (r : F) :
    (∑ x ∈ Finset.range (d + 1),
      P.eval (x : F) * (∏ j ∈ (Finset.range (d + 1)).erase x, (r - (j : F))) *
        (∏ j ∈ (Finset.range (d + 1)).erase x, ((x : F) - (j : F)))⁻¹) = P.eval r := by
  have hvs : Set.InjOn (fun i : Nat => (i : F)) (Finset.range (d + 1)) := by
    intro a ha b hb hab
    have ha' : a ≤ d := by
      have := Finset.mem_coe.mp ha
      have := Finset.mem_range.mp this
      omega
    have hb' : b ≤ d := by
      have := Finset.mem_coe.mp hb
      have := Finset.mem_range.mp this
      omega
    exact hinj a b ha' hb' hab
  have hdlt : P.degree < ((Finset.range (d + 1)).card : WithBot Nat) := by
    rw [Finset.card_range]
    calc P.degree ≤ (P.natDegree : WithBot Nat) := Polynomial.degree_le_natDegree
      _ < _ := by exact_mod_cast (by omega : P.natDegree < d + 1)
  have hP := Lagrange.eq_interpolate hvs hdlt
  conv_rhs => rw [hP]
  rw [Lagrange.interpolate_apply, Polynomial.eval_finset_sum]
  apply Finset.sum_congr rfl
  intro x _
  rw [Polynomial.eval_mul, Polynomial.eval_C, eval_lagrange_basis]
  ring

theorem evaluate_at_a_point_poly (P : Polynomial F) (d : Nat) (hd : 1 ≤ d)
    (hdeg : P.natDegree ≤ d)
    (hinj : ∀ x y : Nat, x ≤ d → y ≤ d → (x : F) = (y : F) → x = y) (r : F) :
    (UnivariateEvals.new
        ((List.range (d + 1)).map (fun x : Nat => P.eval (x : F)))).evaluate_at_a_point r =
      some (Except.ok (P.eval r)) := by
  unfold UnivariateEvals.evaluate_at_a_point
  simp only [UnivariateEvals.new]
  rw [if_neg (by simp; omega)]
  by_cases hr0 : r = 0
  · rw [if_pos hr0]
    rw [List.get?_map, List.get?_range (by omega : 0 < d + 1)]
    subst hr0
    simp
  rw [if_neg hr0]
  by_cases hr1 : r = 1
  · rw [if_pos hr1]
    rw [List.get?_map, List.get?_range (by omega : 1 < d + 1)]
    subst hr1
    simp
  rw [if_neg hr1]
  simp only [List.length_map, List.length_range]
  set f : Nat → Option F := fun x : Nat =>
    let nd := ((List.range x) ++ (List.range' (x + 1) (d + 1 - (x + 1)))).foldl
      (fun (nd : F × F) (val : Nat) =>
        (nd.1 * (r - (val : F)), nd.2 * ((x : F) - (val : F)))) (1, 1)
    if nd.2 = 0 then none
    else some ((((List.range (d + 1)).map (fun x : Nat => P.eval (x : F))).getD x 0) *
      nd.1 * nd.2⁻¹) with hf
  have hterm : ∀ x ∈ List.range (d + 1), f x =
      some (P.eval (x : F) *
        ((nodesList x d).map (fun m : Nat => r - (m : F))).prod *
        (((nodesList x d).map (fun m : Nat => (x : F) - (m : F))).prod)⁻¹) := by
    intro x hx
    have hx2 : x ≤ d := by
      have := List.mem_range.mp hx
      omega
    rw [hf]
    show (if ((nodesList x d).foldl
        (fun (nd : F × F) (val : Nat) =>
          (nd.1 * (r - (val : F)), nd.2 * ((x : F) - (val : F)))) (1, 1)).2 = 0
      then (none : Option F)
      else some ((((List.range (d + 1)).map (fun x : Nat => P.eval (x : F))).getD x 0) *
        ((nodesList x d).foldl
          (fun (nd : F × F) (val : Nat) =>
            (nd.1 * (r - (val : F)), nd.2 * ((x : F) - (val : F)))) (1, 1)).1 *
        (((nodesList x d).foldl
          (fun (nd : F × F) (val : Nat) =>
            (nd.1 * (r - (val : F)), nd.2 * ((x : F) - (val : F)))) (1, 1)).2)⁻¹)) =
      some (P.eval (x : F) *
        ((nodesList x d).map (fun m : Nat => r - (m : F))).prod *
        (((nodesList x d).map (fun m : Nat => (x : F) - (m : F))).prod)⁻¹)
    rw [foldl_pair_mul]
    have hden := nodes_den_ne_zero (F := F) x d hx2 hinj
    rw [if_neg (by simpa using hden)]
    rw [getD_map_range (fun y : Nat => P.eval (y : F)) (d + 1) x 0 (by omega)]
    simp
  have hseq := sequenceTerms_map_some f
    (fun x : Nat => P.eval (x : F) *
      ((nodesList x d).map (fun m : Nat => r - (m : F))).prod *
      (((nodesList x d).map (fun m : Nat => (x : F) - (m : F))).prod)⁻¹)
    (List.range (d + 1)) hterm
  rw [hseq]
  rw [List.range_succ_eq_map, List.map_cons]
  show some (Except.ok ((((List.range d).map Nat.succ).map
      (fun x : Nat => P.eval (x : F) *
        ((nodesList x d).map (fun m : Nat => r - (m : F))).prod *
        (((nodesList x d).map (fun m : Nat => (x : F) - (m : F))).prod)⁻¹)).foldl (· + ·)
      (P.eval ((0 : Nat) : F) *
        ((nodesList 0 d).map (fun m : Nat => r - (m : F))).prod *
        (((nodesList 0 d).map (fun m : Nat => ((0 : Nat) : F) - (m : F))).prod)⁻¹))) =
    some (Except.ok (P.eval r))
  rw [foldl_add_eq_head_sum]
  have hmain : (∑ x ∈ Finset.range (d + 1),
      P.eval (x : F) * ((nodesList x d).map (fun m : Nat => r - (m : F))).prod *
        (((nodesList x d).map (fun m : Nat => (x : F) - (m : F))).prod)⁻¹) = P.eval r := by
    rw [← lagrange_sum_eval P d hdeg hinj r]
    apply Finset.sum_congr rfl
    intro x hxm
    have hx2 : x ≤ d := by
      have := Finset.mem_range.mp hxm
      omega
    rw [prod_nodesList _ _ _ hx2, prod_nodesList _ _ _ hx2]
  rw [← hmain, ← list_range_map_sum]
  congr 2
  simp only [List.range_succ_eq_map, List.map_cons, List.sum_cons, List.map_map]

theorem list_sum_le_length (l : List Nat) (h : ∀ x ∈ l, x ≤ 1) : l.sum ≤ l.length := by
  induction l with
  | nil => simp
  | cons x xs ih =>
    rw [List.sum_cons, List.length_cons]
    have hx := h x (List.mem_cons_self x xs)
    have := ih (fun a ha => h a (List.mem_cons_of_mem _ ha))
    omega

/-- The round polynomial really is a polynomial of degree at most the
number of active factors. -/
theorem roundPoly_is_poly (cp : F) (active : List (List F × Nat)) (m : Nat) :
    ∃ P : Polynomial F, P.natDegree ≤ active.length ∧
      ∀ a : F, P.eval a = roundPolyEval cp active m a := by
  refine ⟨∑ pt ∈ Finset.range (2 ^ m), Polynomial.C cp *
    (active.map (fun tf =>
      Polynomial.C (tf.1.getD (pt >>> (m - (tf.2 - 1))) 0) +
        Polynomial.C (tf.1.getD ((pt >>> (m - (tf.2 - 1))) + 2 ^ (tf.2 - 1)) 0 -
          tf.1.getD (pt >>> (m - (tf.2 - 1))) 0) * Polynomial.X)).prod, ?_, ?_⟩
  · apply le_trans (Polynomial.natDegree_sum_le _ _)
    rw [Finset.fold_max_le]
    refine ⟨Nat.zero_le _, ?_⟩
    intro pt _
    show ((Polynomial.C cp * _).natDegree) ≤ _
    apply le_trans (Polynomial.natDegree_mul_le)
    rw [Polynomial.natDegree_C, Nat.zero_add]
    apply le_trans (Polynomial.natDegree_list_prod_le _)
    rw [List.map_map]
    apply le_trans (list_sum_le_length _ ?_)
    · rw [List.length_map]
    · intro x hx
      rcases List.mem_map.mp hx with ⟨tf, _, htf⟩
      rw [← htf]
      show (Polynomial.C _ + Polynomial.C _ * Polynomial.X).natDegree ≤ 1
      apply le_trans (Polynomial.natDegree_add_le _ _)
      rw [Polynomial.natDegree_C]
      simp only [Nat.max_le, Nat.zero_le, true_and]
      apply le_trans (Polynomial.natDegree_mul_le)
      rw [Polynomial.natDegree_C, Nat.zero_add]
      exact Polynomial.natDegree_X_le
  · intro a
    rw [Polynomial.eval_finset_sum]
    unfold roundPolyEval
    apply Finset.sum_congr rfl
    intro pt _
    rw [Polynomial.eval_mul, Polynomial.eval_C, Polynomial.eval_list_prod, List.map_map]
    congr 1
    apply congrArg List.prod
    apply List.map_congr_left
    intro tf _
    show Polynomial.eval a (Polynomial.C _ + Polynomial.C _ * Polynomial.X) = _
    rw [Polynomial.eval_add, Polynomial.eval_C, Polynomial.eval_mul, Polynomial.eval_C,
      Polynomial.eval_X]
    ring

/-- Concrete cast injectivity for prime fields `ZMod p`, used to discharge
node-distinctness hypotheses at witnesses. -/
theorem zmod_cast_inj (p : Nat) [NeZero p] (x y : Nat) (hx : x < p) (hy : y < p)
    (h : (x : ZMod p) = (y : ZMod p)) : x = y := by
  have hv := congrArg ZMod.val h
  rwa [ZMod.val_cast_of_lt hx, ZMod.val_cast_of_lt hy] at hv

/-- On any evaluation list with at least two entries and distinct nodes,
the interpolation code returns a plain `Except.ok` value. -/
theorem evaluate_at_a_point_isSome (u : UnivariateEvals F) (r : F)
    (hlen : 2 ≤ u.evals.length)
    (hinj : ∀ x y : Nat, x < u.evals.length → y < u.evals.length →
      (x : F) = (y : F) → x = y) :
    ∃ v, u.evaluate_at_a_point r = some (Except.ok v) := by
  obtain ⟨d, hd⟩ : ∃ d, u.evals.length = d + 1 := ⟨u.evals.length - 1, by omega⟩
  have hd1 : 1 ≤ d := by omega
  unfold UnivariateEvals.evaluate_at_a_point
  rw [if_neg (by omega)]
  by_cases hr0 : r = 0
  · rw [if_pos hr0, get?_eq_some_getD u.evals 0 0 (by omega)]
    exact ⟨_, rfl⟩
  rw [if_neg hr0]
  by_cases hr1 : r = 1
  · rw [if_pos hr1, get?_eq_some_getD u.evals 0 1 (by omega)]
    exact ⟨_, rfl⟩
  rw [if_neg hr1]
  simp only [hd]
  set f : Nat → Option F := fun x : Nat =>
    let nd := ((List.range x) ++ (List.range' (x + 1) (d + 1 - (x + 1)))).foldl
      (fun (nd : F × F) (val : Nat) =>
        (nd.1 * (r - (val : F)), nd.2 * ((x : F) - (val : F)))) (1, 1)
    if nd.2 = 0 then none
    else some (u.evals.getD x 0 * nd.1 * nd.2⁻¹) with hf
  have hterm : ∀ x ∈ List.range (d + 1), f x =
      some (u.evals.getD x 0 *
        ((nodesList x d).map (fun m : Nat => r - (m : F))).prod *
        (((nodesList x d).map (fun m : Nat => (x : F) - (m : F))).prod)⁻¹) := by
    intro x hx
    have hx2 : x ≤ d := by
      have := List.mem_range.mp hx
      omega
    rw [hf]
    show (if ((nodesList x d).foldl
        (fun (nd : F × F) (val : Nat) =>
          (nd.1 * (r - (val : F)), nd.2 * ((x : F) - (val : F)))) (1, 1)).2 = 0
      then (none : Option F)
      else some (u.evals.getD x 0 *
        ((nodesList x d).foldl
          (fun (nd : F × F) (val : Nat) =>
            (nd.1 * (r - (val : F)), nd.2 * ((x : F) - (val : F)))) (1, 1)).1 *
        (((nodesList x d).foldl
          (fun (nd : F × F) (val : Nat) =>
            (nd.1 * (r - (val : F)), nd.2 * ((x : F) - (val : F)))) (1, 1)).2)⁻¹)) =
      some (u.evals.getD x 0 *
        ((nodesList x d).map (fun m : Nat => r - (m : F))).prod *
        (((nodesList x d).map (fun m : Nat => (x : F) - (m : F))).prod)⁻¹)
    rw [foldl_pair_mul]
    have hden := nodes_den_ne_zero (F := F) x d hx2
      (fun a b ha hb hab => hinj a b (by omega) (by omega) hab)
    rw [if_neg (by simpa using hden)]
    simp
  have hseq := sequenceTerms_map_some f
    (fun x : Nat => u.evals.getD x 0 *
      ((nodesList x d).map (fun m : Nat => r - (m : F))).prod *
      (((nodesList x d).map (fun m : Nat => (x : F) - (m : F))).prod)⁻¹)
    (List.range (d + 1)) hterm
  rw [hseq]
  rw [List.range_succ_eq_map, List.map_cons]
  exact ⟨_, rfl⟩

theorem verify_loop_total (Sp : TranscriptSponge F S) (q : F)
    (msgs : List (UnivariateEvals F))
    (hmsg : ∀ msg ∈ msgs, 2 ≤ msg.evals.length ∧
      ∀ x y : Nat, x < msg.evals.length → y < msg.evals.length →
        (x : F) = (y : F) → x = y) :
    ∀ (e : F) (t : S), ∃ b : Bool, sumcheck_verify_loop Sp q msgs e t = some b := by
  induction msgs with
  | nil =>
    intro e t
    unfold sumcheck_verify_loop
    by_cases h : e ≠ q
    · rw [if_pos h]
      exact ⟨false, rfl⟩
    · rw [if_neg h]
      exact ⟨true, rfl⟩
  | cons m rest ih =>
    intro e t
    obtain ⟨h2, hinj⟩ := hmsg m (List.mem_cons_self m rest)
    unfold sumcheck_verify_loop
    simp only [UnivariateEvals.get_raw_evals]
    rw [get?_eq_some_getD m.evals 0 0 (by omega), get?_eq_some_getD m.evals 0 1 (by omega)]
    show ∃ b : Bool, (if m.evals.getD 0 0 + m.evals.getD 1 0 ≠ e then some false
      else
        match m.evaluate_at_a_point (Sp.squeeze (Sp.absorbElements t m.evals)).1 with
        | none => none
        | some (Except.error _) => none
        | some (Except.ok v) =>
            sumcheck_verify_loop Sp q rest v
              (Sp.squeeze (Sp.absorbElements t m.evals)).2) = some b
    by_cases hchk : m.evals.getD 0 0 + m.evals.getD 1 0 ≠ e
    · rw [if_pos hchk]
      exact ⟨false, rfl⟩
    · rw [if_neg hchk]
      obtain ⟨v, hv⟩ := evaluate_at_a_point_isSome m
        (Sp.squeeze (Sp.absorbElements t m.evals)).1 h2 hinj
      rw [hv]
      exact ih (fun msg hm => hmsg msg (List.mem_cons_of_mem _ hm)) v
        (Sp.squeeze (Sp.absorbElements t m.evals)).2

/-- C3 (amended): for every `SumcheckProof` whose round messages each hold
at least two evaluations whose integer nodes stay distinct in the field
(automatic when the characteristic exceeds every message degree), and every
`oracle_query`, `sumcheck_verify` terminates normally with a plain boolean:
mismatches yield `false` and verification never aborts.  (As stated over
all proofs the claim is false: a single-evaluation round message makes the
verifier read `raw_evals[1]` out of range, see the counterexample.) -/
theorem C3_verify_returns_boolean (Sp : TranscriptSponge F S) (t0 : S)
    (proof : SumcheckProof F) (oracle_query : F)
    (hmsg : ∀ msg ∈ proof.prover_sumcheck_round_messages, 2 ≤ msg.evals.length ∧
      ∀ x y : Nat, x < msg.evals.length → y < msg.evals.length →
        (x : F) = (y : F) → x = y) :
    ∃ b : Bool, sumcheck_verify Sp t0 proof oracle_query = some b :=
  verify_loop_total Sp oracle_query proof.prover_sumcheck_round_messages hmsg
    proof.claimed_sum (Sp.absorb t0 proof.claimed_sum)

/-- Witness for the amended C3 at a concrete well-shaped but not honest
proof over `ZMod 5`. -/
theorem C3_verify_returns_boolean_witness :
    (∀ msg ∈ (SumcheckProof.new (3 : ZMod 5)
        [UnivariateEvals.new [1, 2, 3]]).prover_sumcheck_round_messages,
      2 ≤ msg.evals.length ∧
      ∀ x y : Nat, x < msg.evals.length → y < msg.evals.length →
        (x : ZMod 5) = (y : ZMod 5) → x = y) ∧
    ∃ b : Bool, sumcheck_verify (zeroSponge (ZMod 5)) ()
      (SumcheckProof.new 3 [UnivariateEvals.new [1, 2, 3]]) 0 = some b := by
  have hmsg : ∀ msg ∈ (SumcheckProof.new (3 : ZMod 5)
      [UnivariateEvals.new [1, 2, 3]]).prover_sumcheck_round_messages,
      2 ≤ msg.evals.length ∧
      ∀ x y : Nat, x < msg.evals.length → y < msg.evals.length →
        (x : ZMod 5) = (y : ZMod 5) → x = y := by
    intro msg hm
    have hmm : msg = UnivariateEvals.new [1, 2, 3] := by
      simpa [SumcheckProof.new] using hm
    subst hmm
    refine ⟨by decide, ?_⟩
    intro x y hx hy h
    have hx5 : x < 5 := by
      simp [UnivariateEvals.new] at hx
      omega
    have hy5 : y < 5 := by
      simp [UnivariateEvals.new] at hy
      omega
    exact zmod_cast_inj 5 x y hx5 hy5 h
  exact ⟨hmsg, C3_verify_returns_boolean (zeroSponge (ZMod 5)) () _ 0 hmsg⟩

/-!  The prover state in closed form, and the single-round step lemma. -/

/-- The prover state after `i` rounds with challenge prefix `rs`:
every table is the original restricted by its leading challenges, the
remaining-variable counts have dropped by `i`, and the constant product
holds the exhausted factors. -/
def specState (mles : List (MultilinearExtension F)) (i : Nat) (rs : List F)
    (t : S) (msgs : List (UnivariateEvals F)) : ProverState F S :=
  { tables := mles.map (fun f => tableSpec f rs)
    vars_left := mles.map (fun f => f.num_vars - i)
    const_prod := constProdSpec mles i rs
    transcript := t
    msgs := msgs }

/-- The evaluations of round `i`: the round polynomial of the current
state tabulated at the integer nodes. -/
def roundEvalsSpec (mles : List (MultilinearExtension F)) (n i : Nat) (rs : List F) :
    List F :=
  (List.range ((activeSpec mles i rs).length + 1)).map
    (fun alpha : Nat =>
      roundPolyEval (constProdSpec mles i rs) (activeSpec mles i rs) (n - i - 1) (alpha : F))

theorem tableSpec_length (f : MultilinearExtension F) (rs : List F) (i : Nat)
    (hw : f.bookkeping_table.length = 2 ^ f.num_vars) (hrs : rs.length = i) :
    (tableSpec f rs).length = 2 ^ (f.num_vars - i) := by
  unfold tableSpec
  rw [foldRestrict_length f.bookkeping_table _ f.num_vars hw
    (by rw [List.length_take]; omega)]
  congr 1
  rw [List.length_take]
  omega

theorem tableSpec_snoc_active (f : MultilinearExtension F) (rs : List F) (i : Nat)
    (hrs : rs.length = i) (hf : i < f.num_vars) (r : F) :
    MultilinearExtension.restrict_first_var (tableSpec f rs) r = tableSpec f (rs ++ [r]) := by
  unfold tableSpec
  rw [List.take_of_length_le (by omega), List.take_of_length_le (by simp; omega)]
  rw [foldRestrict_append]
  rfl

theorem tableSpec_snoc_inactive (f : MultilinearExtension F) (rs : List F) (i : Nat)
    (hrs : rs.length = i) (hf : f.num_vars ≤ i) (r : F) :
    tableSpec f rs = tableSpec f (rs ++ [r]) := by
  unfold tableSpec
  rw [List.take_append_of_le_length (by omega)]

theorem activeSpec_bounds (mles : List (MultilinearExtension F)) (i : Nat) (rs : List F)
    (hw : ∀ f ∈ mles, f.bookkeping_table.length = 2 ^ f.num_vars ∧ 1 ≤ f.num_vars)
    (n : Nat) (hn : ∀ f ∈ mles, f.num_vars ≤ n) (hi : i < n) (hrs : rs.length = i) :
    ∀ tf ∈ activeSpec mles i rs,
      tf.1.length = 2 ^ tf.2 ∧ 1 ≤ tf.2 ∧ tf.2 ≤ (n - i - 1) + 1 := by
  intro tf htf
  rcases List.mem_map.mp htf with ⟨f, hf, hftf⟩
  have hfm : f ∈ mles := List.mem_of_mem_filter hf
  have hfi : i < f.num_vars := by
    have := List.of_mem_filter hf
    simpa using this
  subst hftf
  refine ⟨?_, by simp; omega, by simp; have := hn f hfm; omega⟩
  exact tableSpec_length f rs i (hw f hfm).1 hrs

theorem activeSpec_length_le (mles : List (MultilinearExtension F)) (i : Nat)
    (rs : List F) : (activeSpec mles i rs).length ≤ mles.length := by
  unfold activeSpec
  rw [List.length_map]
  exact List.length_filter_le _ _

theorem activeSpec_nonempty (mles : List (MultilinearExtension F)) (i : Nat)
    (rs : List F) (hi : i < maxNumVars mles) :
    1 ≤ (activeSpec mles i rs).length := by
  obtain ⟨f, hf, hval⟩ := maxNumVars_attained mles (by omega)
  have hmem : f ∈ mles.filter (fun f => decide (i < f.num_vars)) :=
    List.mem_filter.mpr ⟨hf, by simp; omega⟩
  unfold activeSpec
  rw [List.length_map]
  have := List.length_pos.mpr (List.ne_nil_of_mem hmem)
  omega

theorem constProdSpec_step (mles : List (MultilinearExtension F)) (i : Nat)
    (rs : List F) (r : F) (hrs : rs.length = i) :
    constProdSpec mles (i + 1) (rs ++ [r]) =
      constProdSpec mles i rs *
        ((mles.filter (fun f => decide (f.num_vars = i + 1))).map
          (fun f => (foldRestrict f.bookkeping_table ((rs ++ [r]).take f.num_vars)).getD 0 0)).prod := by
  induction mles with
  | nil => simp [constProdSpec]
  | cons f fs ih =>
    unfold constProdSpec at ih ⊢
    rcases lt_trichotomy f.num_vars (i + 1) with hlt | heq | hgt
    · have h1 : f.num_vars ≤ i := by omega
      rw [List.filter_cons, List.filter_cons, List.filter_cons]
      rw [if_pos (by simp; omega), if_pos (by simp; omega), if_neg (by simp; omega)]
      rw [List.map_cons, List.prod_cons, List.map_cons, List.prod_cons]
      rw [List.take_append_of_le_length (by omega)]
      rw [ih]
      ring
    · rw [List.filter_cons, List.filter_cons, List.filter_cons]
      rw [if_pos (by simp; omega), if_neg (by simp; omega), if_pos (by simp; omega)]
      rw [List.map_cons, List.prod_cons, List.map_cons, List.prod_cons]
      rw [ih]
      ring
    · rw [List.filter_cons, List.filter_cons, List.filter_cons]
      rw [if_neg (by simp; omega), if_neg (by simp; omega), if_neg (by simp; omega)]
      exact ih

theorem foldlM_cond_mul {α : Type} (P : α → Prop) [DecidablePred P] (tab : α → List F)
    (l : List α) (hne : ∀ a ∈ l, P a → (tab a).length ≠ 0) :
    ∀ c : F, (l.foldlM (fun cp a =>
      if P a then do
        let v ← (tab a).get? 0
        pure (cp * v)
      else pure cp) c) =
    some (c * ((l.filter (fun a => decide (P a))).map (fun a => (tab a).getD 0 0)).prod) := by
  induction l with
  | nil =>
    intro c
    simp
  | cons x xs ih =>
    intro c
    rw [List.foldlM_cons]
    by_cases hx : P x
    · rw [if_pos hx]
      rw [get?_eq_some_getD (tab x) 0 0
        (by have := hne x (List.mem_cons_self x xs) hx; omega)]
      show xs.foldlM _ (c * (tab x).getD 0 0) = _
      rw [ih (fun a ha hp => hne a (List.mem_cons_of_mem _ ha) hp)]
      rw [List.filter_cons, if_pos (by simpa using hx), List.map_cons, List.prod_cons]
      rw [mul_assoc]
    · rw [if_neg hx]
      show xs.foldlM _ c = _
      rw [ih (fun a ha hp => hne a (List.mem_cons_of_mem _ ha) hp)]
      rw [List.filter_cons, if_neg (by simpa using hx)]

theorem restrict_all_fst_spec (mles : List (MultilinearExtension F)) (i : Nat)
    (rs : List F) (hrs : rs.length = i) (r : F) :
    (restrict_all_active_tables (mles.map (fun f => tableSpec f rs))
        (mles.map (fun f => f.num_vars - i)) r).1 =
      mles.map (fun f => tableSpec f (rs ++ [r])) := by
  unfold restrict_all_active_tables
  rw [List.zip_map', List.unzip_fst, List.map_map, List.map_map]
  apply List.map_congr_left
  intro f _
  simp only [Function.comp_apply]
  by_cases hfi : i < f.num_vars
  · rw [if_pos (by simp; omega)]
    exact tableSpec_snoc_active f rs i hrs hfi r
  · rw [if_neg (by simp; omega)]
    exact tableSpec_snoc_inactive f rs i hrs (by omega) r

theorem restrict_all_snd_spec (mles : List (MultilinearExtension F)) (i : Nat)
    (rs : List F) (hrs : rs.length = i) (r : F) :
    (restrict_all_active_tables (mles.map (fun f => tableSpec f rs))
        (mles.map (fun f => f.num_vars - i)) r).2 =
      mles.map (fun f => f.num_vars - (i + 1)) := by
  unfold restrict_all_active_tables
  rw [List.zip_map', List.unzip_snd, List.map_map, List.map_map]
  apply List.map_congr_left
  intro f _
  simp only [Function.comp_apply]
  by_cases hfi : i < f.num_vars
  · rw [if_pos (by simp; omega)]
    simp
    omega
  · rw [if_neg (by simp; omega)]
    simp
    omega

theorem const_fold_spec (mles : List (MultilinearExtension F)) (i : Nat)
    (rs : List F) (r : F) (hrs : rs.length = i)
    (hw : ∀ f ∈ mles, f.bookkeping_table.length = 2 ^ f.num_vars ∧ 1 ≤ f.num_vars) :
    (((mles.map (fun f => tableSpec f (rs ++ [r]))).zip
        (mles.map (fun f => f.num_vars - (i + 1)))).zip
      (mles.map (fun f => f.num_vars - i))).foldlM
      (fun cp (x : (List F × Nat) × Nat) =>
        if x.2 > 0 ∧ x.1.2 = 0 then do
          let v ← x.1.1.get? 0
          pure (cp * v)
        else pure cp) (constProdSpec mles i rs) =
    some (constProdSpec mles (i + 1) (rs ++ [r])) := by
  rw [List.zip_map', List.zip_map']
  rw [foldlM_cond_mul (fun x : (List F × Nat) × Nat => x.2 > 0 ∧ x.1.2 = 0)
    (fun x => x.1.1) _ ?hne (constProdSpec mles i rs)]
  case hne =>
    intro a ha hp
    rcases List.mem_map.mp ha with ⟨f, hf, hfa⟩
    subst hfa
    have hnum : f.num_vars = i + 1 := by
      have h1 : f.num_vars - i > 0 := hp.1
      have h2 : f.num_vars - (i + 1) = 0 := hp.2
      omega
    show (tableSpec f (rs ++ [r])).length ≠ 0
    rw [tableSpec_length f (rs ++ [r]) (i + 1) (hw f hf).1 (by simp; omega)]
    positivity
  rw [List.map_filter, List.map_map]
  rw [constProdSpec_step mles i rs r hrs]
  congr 1
  have hfe : (mles.filter (fun f => decide (f.num_vars = i + 1))) =
      (mles.filter ((fun x : (List F × Nat) × Nat => decide (x.2 > 0 ∧ x.1.2 = 0)) ∘
        (fun f => ((tableSpec f (rs ++ [r]), f.num_vars - (i + 1)), f.num_vars - i)))) := by
    apply List.filter_congr
    intro f _
    simp only [Function.comp_apply]
    rw [decide_eq_decide]
    constructor
    · intro h
      exact ⟨by show f.num_vars - i > 0; omega, by show f.num_vars - (i + 1) = 0; omega⟩
    · intro hpair
      have h1 : f.num_vars - i > 0 := hpair.1
      have h2 : f.num_vars - (i + 1) = 0 := hpair.2
      omega
  rw [← hfe]
  congr 1

/-- One round of the prover from the closed-form state: the message is the
round polynomial at the nodes, the challenge is squeezed after absorbing
it, every active table is folded by the challenge, and a factor exhausting
its variables joins the constant product. -/
theorem prove_round_step (Sp : TranscriptSponge F S) (mles : List (MultilinearExtension F))
    (hw : ∀ f ∈ mles, f.bookkeping_table.length = 2 ^ f.num_vars ∧ 1 ≤ f.num_vars)
    (n : Nat) (hn : ∀ f ∈ mles, f.num_vars ≤ n)
    (i : Nat) (hi : i < n) (rs : List F) (hrs : rs.length = i)
    (t : S) (msgs : List (UnivariateEvals F)) :
    sumcheck_prove_round Sp n (specState mles i rs t msgs) i =
      some (specState mles (i + 1)
        (rs ++ [(Sp.squeeze (Sp.absorbElements t (roundEvalsSpec mles n i rs))).1])
        (Sp.squeeze (Sp.absorbElements t (roundEvalsSpec mles n i rs))).2
        (msgs ++ [UnivariateEvals.new (roundEvalsSpec mles n i rs)])) := by
  have hT : (specState mles i rs t msgs : ProverState F S).tables =
      mles.map (fun f => tableSpec f rs) := rfl
  have hV : (specState mles i rs t msgs : ProverState F S).vars_left =
      mles.map (fun f => f.num_vars - i) := rfl
  have hC : (specState mles i rs t msgs : ProverState F S).const_prod =
      constProdSpec mles i rs := rfl
  have hTr : (specState mles i rs t msgs : ProverState F S).transcript = t := rfl
  have hM : (specState mles i rs t msgs : ProverState F S).msgs = msgs := rfl
  have hactive : ((specState mles i rs t msgs : ProverState F S).tables.zip
      (specState mles i rs t msgs : ProverState F S).vars_left).filter
        (fun tv => tv.2 > 0) = activeSpec mles i rs := by
    rw [hT, hV, List.zip_map', pairs_filter_eq_activeSpec]
  have heval : eval_round_univariate
      (specState mles i rs t msgs : ProverState F S).const_prod
      (((specState mles i rs t msgs : ProverState F S).tables.zip
        (specState mles i rs t msgs : ProverState F S).vars_left).filter
          (fun tv => tv.2 > 0)) (n - i - 1) =
      some (roundEvalsSpec mles n i rs) := by
    rw [hactive, hC]
    exact eval_round_univariate_spec _ _ _
      (activeSpec_bounds mles i rs hw n hn hi hrs)
  simp only [sumcheck_prove_round]
  rw [heval]
  simp only [Option.pure_def, Option.bind_eq_bind, Option.some_bind]
  rw [hT, hV, hC, hTr, hM]
  rw [restrict_all_fst_spec mles i rs hrs _, restrict_all_snd_spec mles i rs hrs _]
  have hcf := const_fold_spec mles i rs
    (Sp.squeeze (Sp.absorbElements t (roundEvalsSpec mles n i rs))).1 hrs hw
  simp only [Option.pure_def, Option.bind_eq_bind] at hcf
  rw [hcf]
  simp only [Option.some_bind]
  rfl

/-- C3 counterexample: a malformed proof whose round message has a single
evaluation makes `sumcheck_verify` read `raw_evals[1]` out of range and
abort (`none`), not return a boolean. -/
theorem C3_single_eval_message_aborts :
    sumcheck_verify (zeroSponge (ZMod 5)) ()
      (SumcheckProof.new 2 [UnivariateEvals.new [2]]) 0 = none := by
  decide


/-!  The full prover loop: assembly of the round steps. -/

theorem activeSpec_max_nil (mles : List (MultilinearExtension F)) (i : Nat)
    (hi : maxNumVars mles ≤ i) (rs : List F) : activeSpec mles i rs = [] := by
  unfold activeSpec
  have h : mles.filter (fun f => decide (i < f.num_vars)) = [] := by
    rw [List.filter_eq_nil]
    intro f hf
    have := num_vars_le_maxNumVars mles f hf
    simp
    omega
  rw [h, List.map_nil]

theorem stateSum_nil_zero (cp : F) : stateSum cp [] 0 = cp := by
  unfold stateSum
  rw [pow_zero, Finset.sum_range_one]
  simp

/-- Restricting the active factors by a challenge and keeping those still
holding a variable is exactly the active list of the next round. -/
theorem activeSpec_step (mles : List (MultilinearExtension F)) (i : Nat)
    (rs : List F) (hrs : rs.length = i) (r : F) :
    (((activeSpec mles i rs).map (fun tf =>
        (MultilinearExtension.restrict_first_var tf.1 r, tf.2 - 1))).filter
      (fun tf => tf.2 > 0)) = activeSpec mles (i + 1) (rs ++ [r]) := by
  induction mles with
  | nil => rfl
  | cons f fs ih =>
    unfold activeSpec at ih ⊢
    rw [List.filter_cons, List.filter_cons]
    rcases lt_trichotomy f.num_vars (i + 1) with hlt | heq | hgt
    · rw [if_neg (by simp; omega), if_neg (by simp; omega)]
      exact ih
    · rw [if_pos (by simp; omega), if_neg (by simp; omega)]
      rw [List.map_cons, List.map_cons, List.filter_cons]
      rw [if_neg (by show ¬ (decide ((f.num_vars - i) - 1 > 0) = true); simp; omega)]
      exact ih
    · rw [if_pos (by simp; omega), if_pos (by simp; omega)]
      rw [List.map_cons, List.map_cons, List.filter_cons]
      rw [if_pos (by show decide ((f.num_vars - i) - 1 > 0) = true; simp; omega)]
      rw [List.map_cons]
      refine congrArg₂ List.cons ?_ ih
      show (MultilinearExtension.restrict_first_var (tableSpec f rs) r,
          (f.num_vars - i) - 1) = (tableSpec f (rs ++ [r]), f.num_vars - (i + 1))
      rw [tableSpec_snoc_active f rs i hrs (by omega) r, Nat.sub_sub]

/-- Folding the newly exhausted factors into the constant accumulator gives
the constant of the next round. -/
theorem inactive_values_step (mles : List (MultilinearExtension F)) (i : Nat)
    (rs : List F) (hrs : rs.length = i) (r : F) :
    (((activeSpec mles i rs).map (fun tf =>
        (MultilinearExtension.restrict_first_var tf.1 r, tf.2 - 1))).filter
      (fun tf => !(decide (tf.2 > 0)))).map (fun tf => tf.1.getD 0 0) =
    (mles.filter (fun f => decide (f.num_vars = i + 1))).map
      (fun f => (foldRestrict f.bookkeping_table ((rs ++ [r]).take f.num_vars)).getD 0 0) := by
  induction mles with
  | nil => rfl
  | cons f fs ih =>
    unfold activeSpec at ih ⊢
    rw [List.filter_cons, List.filter_cons]
    rcases lt_trichotomy f.num_vars (i + 1) with hlt | heq | hgt
    · rw [if_neg (by simp; omega), if_neg (by simp; omega)]
      exact ih
    · rw [if_pos (by simp; omega), if_pos (by simp; omega)]
      rw [List.map_cons, List.map_cons, List.filter_cons]
      rw [if_pos (by show (!(decide ((f.num_vars - i) - 1 > 0))) = true; simp; omega)]
      rw [List.map_cons, List.map_cons]
      refine congrArg₂ List.cons ?_ ih
      show (MultilinearExtension.restrict_first_var (tableSpec f rs) r).getD 0 0 =
        (foldRestrict f.bookkeping_table ((rs ++ [r]).take f.num_vars)).getD 0 0
      rw [tableSpec_snoc_active f rs i hrs (by omega) r]
      rfl
    · rw [if_pos (by simp; omega), if_neg (by simp; omega)]
      rw [List.map_cons, List.map_cons, List.filter_cons]
      rw [if_neg (by show ¬ ((!(decide ((f.num_vars - i) - 1 > 0))) = true); simp; omega)]
      exact ih

/-- Folding the newly exhausted factors into the constant accumulator gives
the constant of the next round. -/
theorem constProd_step_from_active (mles : List (MultilinearExtension F)) (i : Nat)
    (rs : List F) (hrs : rs.length = i) (r : F) :
    constProdSpec mles i rs *
      (((((activeSpec mles i rs).map (fun tf =>
          (MultilinearExtension.restrict_first_var tf.1 r, tf.2 - 1))).filter
        (fun tf => !(decide (tf.2 > 0)))).map (fun tf => tf.1.getD 0 0)).prod) =
    constProdSpec mles (i + 1) (rs ++ [r]) := by
  rw [constProdSpec_step mles i rs r hrs, inactive_values_step mles i rs hrs r]

/-- The full prover round loop from round `i` in closed form: it succeeds,
the challenges are the transcript replay of the new messages, and the new
messages form an accepting verifier trace carrying the state sum down to
the final constant product. -/
theorem prove_loop_run (Sp : TranscriptSponge F S) (mles : List (MultilinearExtension F))
    (hw : ∀ f ∈ mles, f.bookkeping_table.length = 2 ^ f.num_vars ∧ 1 ≤ f.num_vars)
    (hinj : ∀ x y : Nat, x ≤ mles.length → y ≤ mles.length → (x : F) = (y : F) → x = y) :
    ∀ (c i : Nat), i + c = maxNumVars mles →
    ∀ (rs : List F), rs.length = i → ∀ (t : S) (msgs : List (UnivariateEvals F)),
    ∃ (rs2 : List F) (tF : S) (newMsgs : List (UnivariateEvals F)),
      rs2.length = c ∧
      (List.range' i c).foldlM (sumcheck_prove_round Sp (maxNumVars mles))
          (specState mles i rs t msgs) =
        some (specState mles (i + c) (rs ++ rs2) tF (msgs ++ newMsgs)) ∧
      challengeReplay Sp t newMsgs = rs2 ∧
      VerifyOk Sp newMsgs
        (stateSum (constProdSpec mles i rs) (activeSpec mles i rs) c) t
        (constProdSpec mles (i + c) (rs ++ rs2)) tF := by
  intro c
  induction c with
  | zero =>
    intro i hic rs hrs t msgs
    refine ⟨[], t, [], rfl, ?_, rfl, ?_⟩
    · show some (specState mles i rs t msgs) =
        some (specState mles (i + 0) (rs ++ []) t (msgs ++ []))
      rw [List.append_nil, List.append_nil]
      rfl
    · show constProdSpec mles (i + 0) (rs ++ []) =
        stateSum (constProdSpec mles i rs) (activeSpec mles i rs) 0 ∧ t = t
      rw [List.append_nil]
      refine ⟨?_, rfl⟩
      rw [activeSpec_max_nil mles i (by omega) rs, stateSum_nil_zero]
      rfl
  | succ c ih =>
    intro i hic rs hrs t msgs
    have hi : i < maxNumVars mles := by omega
    have hn : ∀ f ∈ mles, f.num_vars ≤ maxNumVars mles :=
      fun f hf => num_vars_le_maxNumVars mles f hf
    have hm : maxNumVars mles - i - 1 = c := by omega
    have hstep := prove_round_step Sp mles hw (maxNumVars mles) hn i hi rs hrs t msgs
    set EV := roundEvalsSpec mles (maxNumVars mles) i rs with hEV
    set chal := (Sp.squeeze (Sp.absorbElements t EV)).1 with hchal
    set t2 := (Sp.squeeze (Sp.absorbElements t EV)).2 with ht2
    obtain ⟨rs2, tF, newMsgs, hlen2, hfold2, hreplay2, hvo2⟩ :=
      ih (i + 1) (by omega) (rs ++ [chal])
        (by rw [List.length_append, hrs]; rfl) t2 (msgs ++ [UnivariateEvals.new EV])
    have hbounds := activeSpec_bounds mles i rs hw (maxNumVars mles) hn hi hrs
    have hb : ∀ tf ∈ activeSpec mles i rs,
        tf.1.length = 2 ^ tf.2 ∧ 1 ≤ tf.2 ∧ tf.2 ≤ c + 1 := by
      intro tf htf
      obtain ⟨h1, h2, h3⟩ := hbounds tf htf
      exact ⟨h1, h2, by omega⟩
    refine ⟨chal :: rs2, tF, UnivariateEvals.new EV :: newMsgs,
      by rw [List.length_cons, hlen2], ?_, ?_, ?_⟩
    · rw [List.range'_succ i c 1, List.foldlM_cons, hstep]
      simp only [Option.pure_def, Option.bind_eq_bind, Option.some_bind]
      rw [hfold2]
      rw [List.append_assoc, List.append_assoc, List.singleton_append, List.singleton_append]
      rw [show i + 1 + c = i + (c + 1) from by omega]
    · show (Sp.squeeze (Sp.absorbElements t EV)).1 ::
        challengeReplay Sp (Sp.squeeze (Sp.absorbElements t EV)).2 newMsgs = chal :: rs2
      rw [← hchal, ← ht2, hreplay2]
    · obtain ⟨P, hPdeg, hPeval⟩ :=
        roundPoly_is_poly (constProdSpec mles i rs) (activeSpec mles i rs) c
      have hEVP : EV = (List.range ((activeSpec mles i rs).length + 1)).map
          (fun x : Nat => P.eval (x : F)) := by
        rw [hEV]
        unfold roundEvalsSpec
        rw [hm]
        apply List.map_congr_left
        intro a _
        rw [hPeval]
      have hd1 : 1 ≤ (activeSpec mles i rs).length := activeSpec_nonempty mles i rs hi
      have hinjd : ∀ x y : Nat, x ≤ (activeSpec mles i rs).length →
          y ≤ (activeSpec mles i rs).length → (x : F) = (y : F) → x = y := by
        intro x y hx hy hxy
        have hle := activeSpec_length_le mles i rs
        exact hinj x y (hx.trans hle) (hy.trans hle) hxy
      have hg0 : EV.get? 0 = some (roundPolyEval (constProdSpec mles i rs)
          (activeSpec mles i rs) c (((0 : Nat)) : F)) := by
        rw [hEV]
        unfold roundEvalsSpec
        rw [hm, List.get?_map, List.get?_range (by omega)]
        rfl
      have hg1 : EV.get? 1 = some (roundPolyEval (constProdSpec mles i rs)
          (activeSpec mles i rs) c (((1 : Nat)) : F)) := by
        rw [hEV]
        unfold roundEvalsSpec
        rw [hm, List.get?_map, List.get?_range (by omega)]
        rfl
      show (∃ e0 e1, EV.get? 0 = some e0 ∧ EV.get? 1 = some e1 ∧
          e0 + e1 = stateSum (constProdSpec mles i rs) (activeSpec mles i rs) (c + 1)) ∧
        (∃ v, (UnivariateEvals.new EV).evaluate_at_a_point chal = some (Except.ok v) ∧
          VerifyOk Sp newMsgs v t2
            (constProdSpec mles (i + (c + 1)) (rs ++ chal :: rs2)) tF)
      refine ⟨⟨_, _, hg0, hg1, ?_⟩, P.eval chal, ?_, ?_⟩
      · rw [Nat.cast_zero, Nat.cast_one]
        exact roundPoly_zero_add_one (constProdSpec mles i rs) (activeSpec mles i rs) c
          (fun tf htf => ⟨(hb tf htf).2.1, (hb tf htf).2.2⟩)
      · rw [hEVP]
        exact evaluate_at_a_point_poly P (activeSpec mles i rs).length hd1 hPdeg hinjd chal
      · have hv : P.eval chal = stateSum (constProdSpec mles (i + 1) (rs ++ [chal]))
            (activeSpec mles (i + 1) (rs ++ [chal])) c := by
          rw [hPeval, roundPoly_at_point _ _ _ _ hb, stateSum_filter_const]
          rw [activeSpec_step mles i rs hrs chal]
          rw [constProd_step_from_active mles i rs hrs chal]
        rw [hv]
        rw [show i + (c + 1) = i + 1 + c from by omega]
        rw [show rs ++ chal :: rs2 = (rs ++ [chal]) ++ rs2 from by
          rw [List.append_assoc, List.singleton_append]]
        exact hvo2

/-- Running the verifier loop along an accepting trace returns exactly the
comparison of the trace's final expected value with the oracle query. -/
theorem verify_loop_of_VerifyOk (Sp : TranscriptSponge F S) (q : F)
    (msgs : List (UnivariateEvals F)) :
    ∀ (e : F) (t : S) (efin : F) (tfin : S), VerifyOk Sp msgs e t efin tfin →
      sumcheck_verify_loop Sp q msgs e t = some (decide (efin = q)) := by
  induction msgs with
  | nil =>
    intro e t efin tfin hok
    obtain ⟨he, -⟩ := hok
    unfold sumcheck_verify_loop
    rw [he]
    by_cases h : e = q
    · rw [if_neg (by simp [h]), decide_eq_true h]
    · rw [if_pos h, decide_eq_false h]
  | cons m rest ih =>
    intro e t efin tfin hok
    obtain ⟨⟨e0, e1, hg0, hg1, hsum⟩, v, hint, hrest⟩ := hok
    unfold sumcheck_verify_loop
    simp only [UnivariateEvals.get_raw_evals]
    rw [hg0, hg1]
    show (if e0 + e1 ≠ e then some false
      else
        match m.evaluate_at_a_point (Sp.squeeze (Sp.absorbElements t m.evals)).1 with
        | none => none
        | some (Except.error _) => none
        | some (Except.ok v) =>
            sumcheck_verify_loop Sp q rest v
              (Sp.squeeze (Sp.absorbElements t m.evals)).2) = some (decide (efin = q))
    rw [if_neg (by simp [hsum])]
    rw [hint]
    exact ih v (Sp.squeeze (Sp.absorbElements t m.evals)).2 efin tfin hrest

/-- Perturbing evaluation `j ≤ 1` of any round message of an accepting
trace makes the verifier loop reject at that round: the perturbed round
sum no longer matches the expected value carried into the round. -/
theorem verify_loop_perturb (Sp : TranscriptSponge F S) (q : F)
    (msgs : List (UnivariateEvals F)) :
    ∀ (k j : Nat), j ≤ 1 →
    ∀ (mk : UnivariateEvals F) (old x e : F) (t : S) (efin : F) (tfin : S),
      VerifyOk Sp msgs e t efin tfin →
      msgs.get? k = some mk → mk.evals.get? j = some old → x ≠ old →
      sumcheck_verify_loop Sp q
        (msgs.set k (UnivariateEvals.mk (mk.evals.set j x) mk.univariate_poly_deg)) e t =
        some false := by
  induction msgs with
  | nil =>
    intro k j hj mk old x e t efin tfin hok hget hold hxo
    simp at hget
  | cons m rest ih =>
    intro k j hj mk old x e t efin tfin hok hget hold hxo
    obtain ⟨⟨e0, e1, hg0, hg1, hsum⟩, v, hint, hrest⟩ := hok
    cases k with
    | zero =>
      rw [List.get?_cons_zero] at hget
      injection hget with hgeq
      subst hgeq
      rw [List.set_cons_zero]
      unfold sumcheck_verify_loop
      simp only [UnivariateEvals.get_raw_evals]
      rcases Nat.le_one_iff_eq_zero_or_eq_one.mp hj with rfl | rfl
      · have holde : old = e0 := by
          rw [hold] at hg0
          injection hg0 with h
        have hx0 : (m.evals.set 0 x).get? 0 = some x := by
          rw [List.get?_set_eq, hg0]
          rfl
        have hx1 : (m.evals.set 0 x).get? 1 = some e1 :=
          (List.get?_set_ne x m.evals (by omega)).trans hg1
        have hne : x + e1 ≠ e := by
          intro hcontra
          apply hxo
          rw [holde]
          have hxe : x + e1 = e0 + e1 := by rw [hcontra, hsum]
          exact add_right_cancel hxe
        rw [hx0, hx1]
        simp only [Option.pure_def, Option.bind_eq_bind, Option.some_bind]
        rw [if_pos hne]
      · have holde : old = e1 := by
          rw [hold] at hg1
          injection hg1 with h
        have hx0 : (m.evals.set 1 x).get? 0 = some e0 :=
          (List.get?_set_ne x m.evals (by omega)).trans hg0
        have hx1 : (m.evals.set 1 x).get? 1 = some x := by
          rw [List.get?_set_eq, hg1]
          rfl
        have hne : e0 + x ≠ e := by
          intro hcontra
          apply hxo
          rw [holde]
          exact add_left_cancel (hcontra.trans hsum.symm)
        rw [hx0, hx1]
        simp only [Option.pure_def, Option.bind_eq_bind, Option.some_bind]
        rw [if_pos hne]
    | succ k =>
      rw [List.get?_cons_succ] at hget
      rw [List.set_cons_succ]
      unfold sumcheck_verify_loop
      simp only [UnivariateEvals.get_raw_evals]
      rw [hg0, hg1]
      show (if e0 + e1 ≠ e then some false
        else
          match m.evaluate_at_a_point (Sp.squeeze (Sp.absorbElements t m.evals)).1 with
          | none => none
          | some (Except.error _) => none
          | some (Except.ok v) =>
              sumcheck_verify_loop Sp q
                (rest.set k (UnivariateEvals.mk (mk.evals.set j x) mk.univariate_poly_deg)) v
                (Sp.squeeze (Sp.absorbElements t m.evals)).2) = some false
      rw [if_neg (by simp [hsum])]
      rw [hint]
      exact ih k j hj mk old x v (Sp.squeeze (Sp.absorbElements t m.evals)).2 efin tfin
        hrest hget hold hxo

theorem constProdSpec_zero (mles : List (MultilinearExtension F))
    (hw1 : ∀ f ∈ mles, 1 ≤ f.num_vars) : constProdSpec mles 0 [] = 1 := by
  unfold constProdSpec
  have h : mles.filter (fun f => f.num_vars ≤ 0) = [] := by
    rw [List.filter_eq_nil]
    intro f hf
    have := hw1 f hf
    simp
    omega
  rw [h]
  rfl

theorem activeSpec_zero (mles : List (MultilinearExtension F))
    (hw1 : ∀ f ∈ mles, 1 ≤ f.num_vars) :
    activeSpec mles 0 [] = mles.map (fun f => (f.bookkeping_table, f.num_vars)) := by
  unfold activeSpec
  rw [List.filter_eq_self.mpr (fun f hf => by simp; have := hw1 f hf; omega)]
  apply List.map_congr_left
  intro f _
  unfold tableSpec
  rw [List.take_nil]
  rfl

/-- Before the first round, the state sum is the reference hypercube sum. -/
theorem stateSum_zero_eq (mles : List (MultilinearExtension F))
    (hw1 : ∀ f ∈ mles, 1 ≤ f.num_vars)
    (n : Nat) (hn : ∀ f ∈ mles, f.num_vars ≤ n) :
    stateSum (constProdSpec mles 0 []) (activeSpec mles 0 []) n =
      specHypercubeSum mles n := by
  rw [constProdSpec_zero mles hw1, activeSpec_zero mles hw1]
  unfold stateSum specHypercubeSum
  apply Finset.sum_congr rfl
  intro b hb
  rw [one_mul, List.map_map]
  apply congrArg List.prod
  apply List.map_congr_left
  intro f hf
  show f.bookkeping_table.getD (b >>> (n - f.num_vars)) 0 =
    (f.get (b >>> (n - f.num_vars))).getD 0
  rw [get_eq_some_getD f _ (shiftRight_lt_pow (Finset.mem_range.mp hb) (hn f hf))]
  rfl

/-- The honest prover run succeeds and its messages form an accepting
verifier trace from the claimed sum down to the direct evaluation of the
product at the replayed challenge vector. -/
theorem prove_verifyOk (Sp : TranscriptSponge F S) (t0 : S)
    (mles : List (MultilinearExtension F))
    (hw : ∀ f ∈ mles, f.bookkeping_table.length = 2 ^ f.num_vars ∧ 1 ≤ f.num_vars)
    (hinj : ∀ x y : Nat, x ≤ mles.length → y ≤ mles.length → (x : F) = (y : F) → x = y) :
    ∃ (proof : SumcheckProof F) (tP : S) (tfin : S),
      sumcheck_prove Sp t0 mles = some (proof, tP) ∧
      VerifyOk Sp proof.get_prover_sumcheck_round_messages proof.get_claimed_sum
        (Sp.absorb t0 proof.get_claimed_sum)
        (productDirectEval mles (sumcheck_challenges Sp t0 proof)) tfin := by
  have hw1 : ∀ f ∈ mles, 1 ≤ f.num_vars := fun f hf => (hw f hf).2
  have hn : ∀ f ∈ mles, f.num_vars ≤ maxNumVars mles :=
    fun f hf => num_vars_le_maxNumVars mles f hf
  have hsum := sum_over_hypercube_eq mles (maxNumVars mles) hn
  obtain ⟨rs2, tF, newMsgs, hlen, hfold, hreplay, hvo⟩ :=
    prove_loop_run Sp mles hw hinj (maxNumVars mles) 0 (by omega) [] rfl
      (Sp.absorb t0 (specHypercubeSum mles (maxNumVars mles))) []
  have hst0 : ({ tables := mles.map (fun f => f.table)
                 vars_left := mles.map (fun f => f.num_vars)
                 const_prod := 1
                 transcript := Sp.absorb t0 (specHypercubeSum mles (maxNumVars mles))
                 msgs := [] } : ProverState F S) =
      specState mles 0 []
        (Sp.absorb t0 (specHypercubeSum mles (maxNumVars mles))) [] := by
    have htab : mles.map (fun f : MultilinearExtension F => f.table) =
        mles.map (fun f => tableSpec f []) := by
      apply List.map_congr_left
      intro f _
      show f.bookkeping_table = tableSpec f []
      unfold tableSpec
      rw [List.take_nil]
      rfl
    unfold specState
    rw [← htab, ← constProdSpec_zero mles hw1]
    rfl
  refine ⟨SumcheckProof.new (specHypercubeSum mles (maxNumVars mles)) newMsgs,
    tF, tF, ?_, ?_⟩
  · simp only [sumcheck_prove]
    rw [hsum]
    simp only [Option.pure_def, Option.bind_eq_bind, Option.some_bind]
    rw [List.range_eq_range', hst0, hfold]
    rfl
  · show VerifyOk Sp newMsgs (specHypercubeSum mles (maxNumVars mles))
      (Sp.absorb t0 (specHypercubeSum mles (maxNumVars mles)))
      (productDirectEval mles (sumcheck_challenges Sp t0
        (SumcheckProof.new (specHypercubeSum mles (maxNumVars mles)) newMsgs))) tF
    have hch : sumcheck_challenges Sp t0
        (SumcheckProof.new (specHypercubeSum mles (maxNumVars mles)) newMsgs) = rs2 := by
      show challengeReplay Sp
        (Sp.absorb t0 (specHypercubeSum mles (maxNumVars mles))) newMsgs = rs2
      exact hreplay
    rw [hch]
    rw [stateSum_zero_eq mles hw1 (maxNumVars mles) hn] at hvo
    rw [List.nil_append, Nat.zero_add] at hvo
    rw [constProdSpec_eq_productDirectEval mles (maxNumVars mles) rs2
      (fun f hf => (hw f hf).1) hn
      (fun f hf => by rw [hlen]; exact hn f hf)] at hvo
    exact hvo

/-- C1 (amended): completeness holds for factor lists whose tables are
exactly a power of two long with at least one variable each, over a field
where the node casts up to the factor count are injective: the prover
succeeds and the verifier accepts its proof at the honest oracle value,
the direct evaluation of the product at the replayed challenges.  (As
stated over all factor sets the claim is false: an arity-0 factor is never
folded into the constant product and the first round check fails, see the
counterexample.) -/
theorem C1_completeness (Sp : TranscriptSponge F S) (t0 : S)
    (mles : List (MultilinearExtension F))
    (hw : ∀ f ∈ mles, f.bookkeping_table.length = 2 ^ f.num_vars ∧ 1 ≤ f.num_vars)
    (hinj : ∀ x y : Nat, x ≤ mles.length → y ≤ mles.length → (x : F) = (y : F) → x = y) :
    ∃ (proof : SumcheckProof F) (tP : S),
      sumcheck_prove Sp t0 mles = some (proof, tP) ∧
      sumcheck_verify Sp t0 proof
        (productDirectEval mles (sumcheck_challenges Sp t0 proof)) = some true := by
  obtain ⟨proof, tP, tfin, hprove, hvo⟩ := prove_verifyOk Sp t0 mles hw hinj
  refine ⟨proof, tP, hprove, ?_⟩
  unfold sumcheck_verify
  rw [verify_loop_of_VerifyOk Sp
    (productDirectEval mles (sumcheck_challenges Sp t0 proof))
    proof.get_prover_sumcheck_round_messages proof.get_claimed_sum
    (Sp.absorb t0 proof.get_claimed_sum)
    (productDirectEval mles (sumcheck_challenges Sp t0 proof)) tfin hvo]
  rw [decide_eq_true rfl]

/-- Witness for the amended C1: a concrete one-factor instance over
`ZMod 5`, with both hypotheses discharged concretely. -/
theorem C1_completeness_witness :
    (∀ f ∈ [MultilinearExtension.new ([1, 2] : List (ZMod 5))],
      f.bookkeping_table.length = 2 ^ f.num_vars ∧ 1 ≤ f.num_vars) ∧
    ∃ (proof : SumcheckProof (ZMod 5)) (tP : Unit),
      sumcheck_prove (zeroSponge (ZMod 5)) () [MultilinearExtension.new [1, 2]] =
        some (proof, tP) ∧
      sumcheck_verify (zeroSponge (ZMod 5)) () proof
        (productDirectEval [MultilinearExtension.new [1, 2]]
          (sumcheck_challenges (zeroSponge (ZMod 5)) () proof)) = some true := by
  have hnew : MultilinearExtension.new ([1, 2] : List (ZMod 5)) = ⟨[1, 2], 1⟩ :=
    new_eq_mk _ 1 (by norm_num) (Or.inr (by norm_num))
  have hw : ∀ f ∈ [MultilinearExtension.new ([1, 2] : List (ZMod 5))],
      f.bookkeping_table.length = 2 ^ f.num_vars ∧ 1 ≤ f.num_vars := by
    rw [hnew]
    decide
  refine ⟨hw, C1_completeness (zeroSponge (ZMod 5)) () _ hw ?_⟩
  intro x y hx hy h
  have hx5 : x < 5 := by
    simp at hx
    omega
  have hy5 : y < 5 := by
    simp at hy
    omega
  exact zmod_cast_inj 5 x y hx5 hy5 h

/-- C1 counterexample: with the arity-0 factor `[2]` alongside `[1, 1]`,
the claimed sum is `4` but the constant factor is never folded into the
round polynomial (`eval_round_univariate` only multiplies factors with a
variable left, and the fold into `const_prod` fires only when a factor
just dropped to zero variables), so the first round message sums to `2`
and the verifier rejects the honest proof at the honest oracle value. -/
theorem C1_completeness_counterexample :
    sumcheck_prove (zeroSponge (ZMod 5)) ()
        [MultilinearExtension.new [1, 1], MultilinearExtension.new [2]] =
      some (SumcheckProof.new 4 [UnivariateEvals.new [1, 1]], ()) ∧
    sumcheck_verify (zeroSponge (ZMod 5)) ()
        (SumcheckProof.new 4 [UnivariateEvals.new [1, 1]])
        (productDirectEval [MultilinearExtension.new [1, 1], MultilinearExtension.new [2]]
          (sumcheck_challenges (zeroSponge (ZMod 5)) ()
            (SumcheckProof.new 4 [UnivariateEvals.new [1, 1]]))) = some false := by
  have h1 : MultilinearExtension.new ([1, 1] : List (ZMod 5)) = ⟨[1, 1], 1⟩ :=
    new_eq_mk _ 1 (by norm_num) (Or.inr (by norm_num))
  have h2 : MultilinearExtension.new ([2] : List (ZMod 5)) = ⟨[2], 0⟩ :=
    new_eq_mk _ 0 (by norm_num) (Or.inl rfl)
  rw [h1, h2]
  exact ⟨by decide, by decide⟩

/-- The bounds of the active factors at round `i`, from the power-of-two
table lengths alone: an active factor has a variable left by definition. -/
theorem activeSpec_bounds_pow (mles : List (MultilinearExtension F)) (i : Nat) (rs : List F)
    (hpow : ∀ f ∈ mles, f.bookkeping_table.length = 2 ^ f.num_vars)
    (n : Nat) (hn : ∀ f ∈ mles, f.num_vars ≤ n) (hi : i < n) (hrs : rs.length = i) :
    ∀ tf ∈ activeSpec mles i rs,
      tf.1.length = 2 ^ tf.2 ∧ 1 ≤ tf.2 ∧ tf.2 ≤ (n - i - 1) + 1 := by
  intro tf htf
  rcases List.mem_map.mp htf with ⟨f, hf, hftf⟩
  have hfm : f ∈ mles := List.mem_of_mem_filter hf
  have hfi : i < f.num_vars := by
    have := List.of_mem_filter hf
    simpa using this
  subst hftf
  refine ⟨?_, by simp; omega, by simp; have := hn f hfm; omega⟩
  exact tableSpec_length f rs i (hpow f hfm) hrs

/-- The prover state after `i` rounds with challenge prefix `rs`, with the
constant accumulator left abstract: the shape facts below hold regardless
of its value (which is wrong for arity-0 factors, see C1). -/
def msgState (mles : List (MultilinearExtension F)) (i : Nat) (rs : List F)
    (cp : F) (t : S) (msgs : List (UnivariateEvals F)) : ProverState F S :=
  { tables := mles.map (fun f => tableSpec f rs)
    vars_left := mles.map (fun f => f.num_vars - i)
    const_prod := cp
    transcript := t
    msgs := msgs }

/-- The evaluations of round `i` from an arbitrary constant accumulator. -/
def roundEvals (cp : F) (mles : List (MultilinearExtension F)) (n i : Nat)
    (rs : List F) : List F :=
  (List.range ((activeSpec mles i rs).length + 1)).map
    (fun alpha : Nat =>
      roundPolyEval cp (activeSpec mles i rs) (n - i - 1) (alpha : F))

/-- One prover round from the abstract-constant state: it succeeds for any
accumulator value, produces one evaluation per active factor plus one, and
folds the tables; only power-of-two table lengths are needed. -/
theorem prove_round_step_msgs (Sp : TranscriptSponge F S)
    (mles : List (MultilinearExtension F))
    (hpow : ∀ f ∈ mles, f.bookkeping_table.length = 2 ^ f.num_vars)
    (n : Nat) (hn : ∀ f ∈ mles, f.num_vars ≤ n)
    (i : Nat) (hi : i < n) (rs : List F) (hrs : rs.length = i)
    (t : S) (cp : F) (msgs : List (UnivariateEvals F)) :
    ∃ cp2 : F,
      sumcheck_prove_round Sp n (msgState mles i rs cp t msgs) i =
        some (msgState mles (i + 1)
          (rs ++ [(Sp.squeeze (Sp.absorbElements t (roundEvals cp mles n i rs))).1])
          cp2
          (Sp.squeeze (Sp.absorbElements t (roundEvals cp mles n i rs))).2
          (msgs ++ [UnivariateEvals.new (roundEvals cp mles n i rs)])) := by
  have hT : (msgState mles i rs cp t msgs : ProverState F S).tables =
      mles.map (fun f => tableSpec f rs) := rfl
  have hV : (msgState mles i rs cp t msgs : ProverState F S).vars_left =
      mles.map (fun f => f.num_vars - i) := rfl
  have hC : (msgState mles i rs cp t msgs : ProverState F S).const_prod = cp := rfl
  have hTr : (msgState mles i rs cp t msgs : ProverState F S).transcript = t := rfl
  have hM : (msgState mles i rs cp t msgs : ProverState F S).msgs = msgs := rfl
  have hactive : ((msgState mles i rs cp t msgs : ProverState F S).tables.zip
      (msgState mles i rs cp t msgs : ProverState F S).vars_left).filter
        (fun tv => tv.2 > 0) = activeSpec mles i rs := by
    rw [hT, hV, List.zip_map', pairs_filter_eq_activeSpec]
  have heval : eval_round_univariate
      (msgState mles i rs cp t msgs : ProverState F S).const_prod
      (((msgState mles i rs cp t msgs : ProverState F S).tables.zip
        (msgState mles i rs cp t msgs : ProverState F S).vars_left).filter
          (fun tv => tv.2 > 0)) (n - i - 1) =
      some (roundEvals cp mles n i rs) := by
    rw [hactive, hC]
    exact eval_round_univariate_spec _ _ _
      (activeSpec_bounds_pow mles i rs hpow n hn hi hrs)
  refine ⟨cp * (((mles.map (fun f =>
      ((tableSpec f (rs ++
          [(Sp.squeeze (Sp.absorbElements t (roundEvals cp mles n i rs))).1]),
        f.num_vars - (i + 1)), f.num_vars - i))).filter
      (fun x => decide (x.2 > 0 ∧ x.1.2 = 0))).map (fun x => x.1.1.getD 0 0)).prod, ?_⟩
  simp only [sumcheck_prove_round]
  rw [heval]
  simp only [Option.pure_def, Option.bind_eq_bind, Option.some_bind]
  rw [hT, hV, hC, hTr, hM]
  rw [restrict_all_fst_spec mles i rs hrs _, restrict_all_snd_spec mles i rs hrs _]
  rw [List.zip_map', List.zip_map']
  have hcf := foldlM_cond_mul (fun x : (List F × Nat) × Nat => x.2 > 0 ∧ x.1.2 = 0)
    (fun x => x.1.1)
    (mles.map (fun f =>
      ((tableSpec f (rs ++
          [(Sp.squeeze (Sp.absorbElements t (roundEvals cp mles n i rs))).1]),
        f.num_vars - (i + 1)), f.num_vars - i))) ?hne cp
  case hne =>
    intro a ha hp
    rcases List.mem_map.mp ha with ⟨f, hf, hfa⟩
    subst hfa
    have hnum : f.num_vars = i + 1 := by
      have h1 : f.num_vars - i > 0 := hp.1
      have h2 : f.num_vars - (i + 1) = 0 := hp.2
      omega
    show (tableSpec f (rs ++
        [(Sp.squeeze (Sp.absorbElements t (roundEvals cp mles n i rs))).1])).length ≠ 0
    rw [tableSpec_length f _ (i + 1) (hpow f hf) (by simp; omega)]
    positivity
  simp only [Option.pure_def, Option.bind_eq_bind] at hcf
  rw [hcf]
  simp only [Option.some_bind]
  rfl

/-- The prover loop from the abstract-constant state, tracking only the
shape of each round message: round `i + k` contributes one evaluation per
factor still holding a variable, plus one.  No lower bound on factor
arities is needed. -/
theorem prove_loop_msgs_pow (Sp : TranscriptSponge F S)
    (mles : List (MultilinearExtension F))
    (hpow : ∀ f ∈ mles, f.bookkeping_table.length = 2 ^ f.num_vars) :
    ∀ (c i : Nat), i + c = maxNumVars mles →
    ∀ (rs : List F), rs.length = i →
    ∀ (t : S) (cp : F) (msgs : List (UnivariateEvals F)),
    ∃ (rs2 : List F) (tF : S) (cpF : F) (newMsgs : List (UnivariateEvals F)),
      rs2.length = c ∧ newMsgs.length = c ∧
      (List.range' i c).foldlM (sumcheck_prove_round Sp (maxNumVars mles))
          (msgState mles i rs cp t msgs) =
        some (msgState mles (i + c) (rs ++ rs2) cpF tF (msgs ++ newMsgs)) ∧
      ∀ k : Nat, ∀ mk : UnivariateEvals F, newMsgs.get? k = some mk →
        mk.evals.length =
          (mles.filter (fun f => decide (i + k < f.num_vars))).length + 1 := by
  intro c
  induction c with
  | zero =>
    intro i hic rs hrs t cp msgs
    refine ⟨[], t, cp, [], rfl, rfl, ?_, ?_⟩
    · show some (msgState mles i rs cp t msgs) =
        some (msgState mles (i + 0) (rs ++ []) cp t (msgs ++ []))
      rw [List.append_nil, List.append_nil]
      rfl
    · intro k mk hmk
      simp at hmk
  | succ c ih =>
    intro i hic rs hrs t cp msgs
    have hi : i < maxNumVars mles := by omega
    have hn : ∀ f ∈ mles, f.num_vars ≤ maxNumVars mles :=
      fun f hf => num_vars_le_maxNumVars mles f hf
    obtain ⟨cp2, hstep⟩ :=
      prove_round_step_msgs Sp mles hpow (maxNumVars mles) hn i hi rs hrs t cp msgs
    set EV := roundEvals cp mles (maxNumVars mles) i rs with hEV
    set chal := (Sp.squeeze (Sp.absorbElements t EV)).1 with hchal
    set t2 := (Sp.squeeze (Sp.absorbElements t EV)).2 with ht2
    obtain ⟨rs2, tF, cpF, newMsgs, hlen2, hmlen2, hfold2, hlens⟩ :=
      ih (i + 1) (by omega) (rs ++ [chal])
        (by rw [List.length_append, hrs]; rfl) t2 cp2 (msgs ++ [UnivariateEvals.new EV])
    refine ⟨chal :: rs2, tF, cpF, UnivariateEvals.new EV :: newMsgs,
      by rw [List.length_cons, hlen2], by rw [List.length_cons, hmlen2], ?_, ?_⟩
    · rw [List.range'_succ i c 1, List.foldlM_cons, hstep]
      simp only [Option.pure_def, Option.bind_eq_bind, Option.some_bind]
      rw [hfold2]
      rw [List.append_assoc, List.append_assoc, List.singleton_append, List.singleton_append]
      rw [show i + 1 + c = i + (c + 1) from by omega]
    · intro k mk hmk
      cases k with
      | zero =>
        rw [List.get?_cons_zero] at hmk
        injection hmk with hmk
        subst hmk
        have hevlen : EV.length = (activeSpec mles i rs).length + 1 := by
          rw [hEV]
          unfold roundEvals
          rw [List.length_map, List.length_range]
        show EV.length = (mles.filter (fun f => decide (i + 0 < f.num_vars))).length + 1
        rw [hevlen]
        unfold activeSpec
        rw [List.length_map]
        rfl
      | succ k =>
        rw [List.get?_cons_succ] at hmk
        have hk := hlens k mk hmk
        rw [show i + 1 + k = i + (k + 1) from by omega] at hk
        exact hk

/-- C8: whenever the prover succeeds on factors with power-of-two table
lengths, the `i`-th round message holds one evaluation per factor with a
positive remaining-variable count at the start of round `i` (i.e. arity
above `i`), plus one.  Zero-variable factors are covered: they are simply
never active. -/
theorem C8_round_degree_bound (Sp : TranscriptSponge F S) (t0 : S)
    (mles : List (MultilinearExtension F))
    (hw : ∀ f ∈ mles, f.bookkeping_table.length = 2 ^ f.num_vars)
    (proof : SumcheckProof F) (tP : S)
    (hprove : sumcheck_prove Sp t0 mles = some (proof, tP))
    (i : Nat) (msg : UnivariateEvals F)
    (hmsg : proof.get_prover_sumcheck_round_messages.get? i = some msg) :
    msg.evals.length = (mles.filter (fun f => decide (i < f.num_vars))).length + 1 := by
  have hn : ∀ f ∈ mles, f.num_vars ≤ maxNumVars mles :=
    fun f hf => num_vars_le_maxNumVars mles f hf
  have hsum := sum_over_hypercube_eq mles (maxNumVars mles) hn
  obtain ⟨rs2, tF, cpF, newMsgs, hlen, hmlen, hfold, hlens⟩ :=
    prove_loop_msgs_pow Sp mles hw (maxNumVars mles) 0 (by omega) [] rfl
      (Sp.absorb t0 (specHypercubeSum mles (maxNumVars mles))) 1 []
  have hst0 : ({ tables := mles.map (fun f => f.table)
                 vars_left := mles.map (fun f => f.num_vars)
                 const_prod := 1
                 transcript := Sp.absorb t0 (specHypercubeSum mles (maxNumVars mles))
                 msgs := [] } : ProverState F S) =
      msgState mles 0 [] 1
        (Sp.absorb t0 (specHypercubeSum mles (maxNumVars mles))) [] := by
    have htab : mles.map (fun f : MultilinearExtension F => f.table) =
        mles.map (fun f => tableSpec f []) := by
      apply List.map_congr_left
      intro f _
      show f.bookkeping_table = tableSpec f []
      unfold tableSpec
      rw [List.take_nil]
      rfl
    unfold msgState
    rw [← htab]
    rfl
  have hprove2 : sumcheck_prove Sp t0 mles =
      some (SumcheckProof.new (specHypercubeSum mles (maxNumVars mles)) newMsgs, tF) := by
    simp only [sumcheck_prove]
    rw [hsum]
    simp only [Option.pure_def, Option.bind_eq_bind, Option.some_bind]
    rw [List.range_eq_range', hst0, hfold]
    rfl
  rw [hprove2] at hprove
  injection hprove with hpair
  have hproof : SumcheckProof.new (specHypercubeSum mles (maxNumVars mles)) newMsgs =
      proof := congrArg Prod.fst hpair
  rw [← hproof] at hmsg
  have hgm : newMsgs.get? i = some msg := hmsg
  have hfin := hlens i msg hgm
  rw [Nat.zero_add] at hfin
  exact hfin

/-- Witness for C8 at a concrete instance over `ZMod 5` containing a
zero-variable factor: the single round message of the proof for tables
`[1,1]` and `[2]` has two evaluations, the one active factor plus one. -/
theorem C8_round_degree_bound_witness :
    (∀ f ∈ [MultilinearExtension.new ([1, 1] : List (ZMod 5)),
        MultilinearExtension.new [2]],
      f.bookkeping_table.length = 2 ^ f.num_vars) ∧
    sumcheck_prove (zeroSponge (ZMod 5)) ()
        [MultilinearExtension.new [1, 1], MultilinearExtension.new [2]] =
      some (SumcheckProof.new 4 [UnivariateEvals.new [1, 1]], ()) ∧
    (SumcheckProof.new (4 : ZMod 5)
        [UnivariateEvals.new [1, 1]]).get_prover_sumcheck_round_messages.get? 0 =
      some (UnivariateEvals.new [1, 1]) ∧
    (UnivariateEvals.new ([1, 1] : List (ZMod 5))).evals.length =
      ([MultilinearExtension.new ([1, 1] : List (ZMod 5)),
        MultilinearExtension.new [2]].filter
          (fun f => decide (0 < f.num_vars))).length + 1 := by
  have h1 : MultilinearExtension.new ([1, 1] : List (ZMod 5)) = ⟨[1, 1], 1⟩ :=
    new_eq_mk _ 1 (by norm_num) (Or.inr (by norm_num))
  have h2 : MultilinearExtension.new ([2] : List (ZMod 5)) = ⟨[2], 0⟩ :=
    new_eq_mk _ 0 (by norm_num) (Or.inl rfl)
  rw [h1, h2]
  exact ⟨by decide, by decide, by decide,
    C8_round_degree_bound (zeroSponge (ZMod 5)) ()
      [⟨[1, 1], 1⟩, ⟨[2], 0⟩] (by decide)
      (SumcheckProof.new 4 [UnivariateEvals.new [1, 1]]) ()
      (by decide) 0 (UnivariateEvals.new [1, 1]) (by decide)⟩

/-- C4 (amended): for the proof of an honest run over well-formed factors
with injective node casts, perturbing the final oracle query, or
evaluation `0` or `1` of any round message, makes the verifier return
`false`.  (As stated over all single evaluations the claim is false:
perturbing an evaluation at index `2` or above of a round message can
leave the verifier accepting, see the counterexample.) -/
theorem C4_soundness_perturbation (Sp : TranscriptSponge F S) (t0 : S)
    (mles : List (MultilinearExtension F))
    (hw : ∀ f ∈ mles, f.bookkeping_table.length = 2 ^ f.num_vars ∧ 1 ≤ f.num_vars)
    (hinj : ∀ x y : Nat, x ≤ mles.length → y ≤ mles.length → (x : F) = (y : F) → x = y) :
    ∃ (proof : SumcheckProof F) (tP : S),
      sumcheck_prove Sp t0 mles = some (proof, tP) ∧
      (∀ q : F, q ≠ productDirectEval mles (sumcheck_challenges Sp t0 proof) →
        sumcheck_verify Sp t0 proof q = some false) ∧
      (∀ (k j : Nat), j ≤ 1 → ∀ (mk : UnivariateEvals F),
        proof.get_prover_sumcheck_round_messages.get? k = some mk →
        ∀ (old : F), mk.evals.get? j = some old → ∀ x : F, x ≠ old → ∀ q : F,
        sumcheck_verify Sp t0
          (SumcheckProof.new proof.get_claimed_sum
            (proof.get_prover_sumcheck_round_messages.set k
              (UnivariateEvals.mk (mk.evals.set j x) mk.univariate_poly_deg))) q =
          some false) := by
  obtain ⟨proof, tP, tfin, hprove, hvo⟩ := prove_verifyOk Sp t0 mles hw hinj
  refine ⟨proof, tP, hprove, ?_, ?_⟩
  · intro q hq
    unfold sumcheck_verify
    rw [verify_loop_of_VerifyOk Sp q
      proof.get_prover_sumcheck_round_messages proof.get_claimed_sum
      (Sp.absorb t0 proof.get_claimed_sum)
      (productDirectEval mles (sumcheck_challenges Sp t0 proof)) tfin hvo]
    rw [decide_eq_false (fun h => hq h.symm)]
  · intro k j hj mk hk old hold x hxo q
    unfold sumcheck_verify
    exact verify_loop_perturb Sp q proof.get_prover_sumcheck_round_messages k j hj
      mk old x proof.get_claimed_sum (Sp.absorb t0 proof.get_claimed_sum)
      (productDirectEval mles (sumcheck_challenges Sp t0 proof)) tfin hvo hk hold hxo

/-- Witness for the amended C4: the concrete one-factor instance over
`ZMod 5`, rejecting a wrong oracle query and a perturbed first evaluation. -/
theorem C4_soundness_perturbation_witness :
    (∀ f ∈ [MultilinearExtension.new ([1, 2] : List (ZMod 5))],
      f.bookkeping_table.length = 2 ^ f.num_vars ∧ 1 ≤ f.num_vars) ∧
    ∃ (proof : SumcheckProof (ZMod 5)) (tP : Unit),
      sumcheck_prove (zeroSponge (ZMod 5)) () [MultilinearExtension.new [1, 2]] =
        some (proof, tP) ∧
      (∀ q : ZMod 5, q ≠ productDirectEval [MultilinearExtension.new [1, 2]]
          (sumcheck_challenges (zeroSponge (ZMod 5)) () proof) →
        sumcheck_verify (zeroSponge (ZMod 5)) () proof q = some false) ∧
      (∀ (k j : Nat), j ≤ 1 → ∀ (mk : UnivariateEvals (ZMod 5)),
        proof.get_prover_sumcheck_round_messages.get? k = some mk →
        ∀ (old : ZMod 5), mk.evals.get? j = some old → ∀ x : ZMod 5, x ≠ old →
        ∀ q : ZMod 5,
        sumcheck_verify (zeroSponge (ZMod 5)) ()
          (SumcheckProof.new proof.get_claimed_sum
            (proof.get_prover_sumcheck_round_messages.set k
              (UnivariateEvals.mk (mk.evals.set j x) mk.univariate_poly_deg))) q =
          some false) := by
  have hnew : MultilinearExtension.new ([1, 2] : List (ZMod 5)) = ⟨[1, 2], 1⟩ :=
    new_eq_mk _ 1 (by norm_num) (Or.inr (by norm_num))
  have hw : ∀ f ∈ [MultilinearExtension.new ([1, 2] : List (ZMod 5))],
      f.bookkeping_table.length = 2 ^ f.num_vars ∧ 1 ≤ f.num_vars := by
    rw [hnew]
    decide
  refine ⟨hw, C4_soundness_perturbation (zeroSponge (ZMod 5)) () _ hw ?_⟩
  intro x y hx hy h
  have hx5 : x < 5 := by
    simp at hx
    omega
  have hy5 : y < 5 := by
    simp at hy
    omega
  exact zmod_cast_inj 5 x y hx5 hy5 h

/-- C4 counterexample: for the honest two-factor proof over `ZMod 5` with
message `[1, 1, 0]`, changing the third evaluation (index `2`, the value at
node `2`) from `0` to `4` still verifies `true` at the honest oracle value:
the round check only reads evaluations `0` and `1`, and the degenerate
challenge `0` makes the interpolation read only evaluation `0`. -/
theorem C4_perturbation_counterexample :
    sumcheck_prove (zeroSponge (ZMod 5)) ()
        [MultilinearExtension.new [1, 2], MultilinearExtension.new [1, 3]] =
      some (SumcheckProof.new 2 [UnivariateEvals.new [1, 1, 0]], ()) ∧
    UnivariateEvals.mk
        ((UnivariateEvals.new ([1, 1, 0] : List (ZMod 5))).evals.set 2 4)
        (UnivariateEvals.new ([1, 1, 0] : List (ZMod 5))).univariate_poly_deg =
      UnivariateEvals.new [1, 1, 4] ∧
    ((4 : ZMod 5) ≠ 0) ∧
    sumcheck_verify (zeroSponge (ZMod 5)) ()
        (SumcheckProof.new 2 [UnivariateEvals.new [1, 1, 4]])
        (productDirectEval [MultilinearExtension.new [1, 2], MultilinearExtension.new [1, 3]]
          (sumcheck_challenges (zeroSponge (ZMod 5)) ()
            (SumcheckProof.new 2 [UnivariateEvals.new [1, 1, 4]]))) = some true := by
  have h1 : MultilinearExtension.new ([1, 2] : List (ZMod 5)) = ⟨[1, 2], 1⟩ :=
    new_eq_mk _ 1 (by norm_num) (Or.inr (by norm_num))
  have h2 : MultilinearExtension.new ([1, 3] : List (ZMod 5)) = ⟨[1, 3], 1⟩ :=
    new_eq_mk _ 1 (by norm_num) (Or.inr (by norm_num))
  rw [h1, h2]
  exact ⟨by decide, by decide, by decide, by decide⟩

end Sumcheck
